import Mathlib

/-!
# CMSIS (Cortex-R DSP library) kernels and filter initialisers

A shallow embedding of

* `Source/BasicMathFunctions/arm_dot_prod_q31.c`
* `Source/BasicMathFunctions/arm_offset_f32.c`
* `Source/ComplexMathFunctions/arm_cmplx_dot_prod_f32.c`
* `Source/FilteringFunctions/arm_fir_decimate_init_q31.c`
* `Source/FilteringFunctions/arm_iir_lattice_init_q15.c`
* `Source/FilteringFunctions/arm_lms_init_q31.c`
* `Source/StatisticsFunctions/arm_rms_q31.c`

Conventions of the embedding.

* A C pointer into an array is the function `Nat → α` giving the element at
  each offset from the pointer; `p += k` is `advance p k`.
* Machine integers are `Int`/`Nat` with the wrap-around written out:
  `wrap64` for `q63_t`, `% 2 ^ 32` for `uint32_t` and `size_t`.
* `while (blkCnt > 0u) { body; blkCnt--; }` is `loopN blkCnt body`.
-/

namespace CMSIS

/-! ## Machine arithmetic -/

/-- Conversion of an integer to `q63_t` (two's complement, 64 bits). -/
def wrap64 (x : Int) : Int := (x + 2 ^ 63) % 2 ^ 64 - 2 ^ 63

/-- The value is representable as a `q63_t`. -/
def fits64 (x : Int) : Bool := decide (-(2 ^ 63) ≤ x) && decide (x < 2 ^ 63)

/-- The value is a `q31_t`: a signed 32-bit integer. -/
def isQ31 (x : Int) : Prop := -(2 ^ 31) ≤ x ∧ x < 2 ^ 31

instance (x : Int) : Decidable (isQ31 x) := by unfold isQ31; infer_instance

/-- Pointer arithmetic `p + k` on a pointer into an array. -/
def advance {α : Type} (p : Nat → α) (k : Nat) : Nat → α := fun i => p (i + k)

/-- The loop `while (blkCnt > 0u) { body; blkCnt--; }`. -/
def loopN {σ : Type} (body : σ → σ) : Nat → σ → σ
  | 0, s => s
  | k + 1, s => loopN body k (body s)

/-- The array of the elements of a list, padded with `d` (used for concrete inputs). -/
def ofList {α : Type} (l : List α) (d : α) : Nat → α := fun i => l.getD i d

/-! ## `arm_dot_prod_q31` -/

/-- The expression `((q63_t) a * b) >> 14u`: the product formed in 64 bits, then an
arithmetic shift right by 14. -/
def mul_shift14 (a b : Int) : Int := (wrap64 (a * b)) >>> (14 : Nat)

/-- Local variables of `arm_dot_prod_q31`.  `noOverflow` is a ghost flag: it is cleared
by the first `+=` whose exact sum is not representable in the 64-bit accumulator. -/
structure DotProdState where
  pSrcA : Nat → Int
  pSrcB : Nat → Int
  sum : Int
  sum1 : Int
  noOverflow : Bool

/-- The statement `sum += ((q63_t) inA * inB) >> 14u`. -/
def DotProdState.addSum (s : DotProdState) (inA inB : Int) : DotProdState :=
  { s with sum := wrap64 (s.sum + mul_shift14 inA inB)
           noOverflow := s.noOverflow && fits64 (s.sum + mul_shift14 inA inB) }

/-- The statement `sum1 += ((q63_t) inA * inB) >> 14u`. -/
def DotProdState.addSum1 (s : DotProdState) (inA inB : Int) : DotProdState :=
  { s with sum1 := wrap64 (s.sum1 + mul_shift14 inA inB)
           noOverflow := s.noOverflow && fits64 (s.sum1 + mul_shift14 inA inB) }

/-- Body of the first loop of `arm_dot_prod_q31` (lines 68-115): eight samples. -/
def dot_prod_body8 (s : DotProdState) : DotProdState :=
  let s := s.addSum (s.pSrcA 0) (s.pSrcB 0)
  let s := s.addSum1 (s.pSrcA 1) (s.pSrcB 1)
  let s := s.addSum (s.pSrcA 2) (s.pSrcB 2)
  let s := s.addSum1 (s.pSrcA 3) (s.pSrcB 3)
  let s := s.addSum (s.pSrcA 4) (s.pSrcB 4)
  let s := s.addSum1 (s.pSrcA 5) (s.pSrcB 5)
  let s := s.addSum (s.pSrcA 6) (s.pSrcB 6)
  let s := s.addSum1 (s.pSrcA 7) (s.pSrcB 7)
  { s with pSrcA := advance s.pSrcA 8, pSrcB := advance s.pSrcB 8 }

/-- Body of the second loop of `arm_dot_prod_q31` (lines 121-129): one sample. -/
def dot_prod_body1 (s : DotProdState) : DotProdState :=
  let s := s.addSum (s.pSrcA 0) (s.pSrcB 0)
  { s with pSrcA := advance s.pSrcA 1, pSrcB := advance s.pSrcB 1 }

/-- The statement `sum = sum + sum1` (line 116). -/
def dot_prod_merge (s : DotProdState) : DotProdState :=
  { s with sum := wrap64 (s.sum + s.sum1)
           noOverflow := s.noOverflow && fits64 (s.sum + s.sum1) }

/-- Final state of `arm_dot_prod_q31 (pSrcA, pSrcB, blockSize, result)`. -/
def dot_prod_run (pSrcA pSrcB : Nat → Int) (blockSize : Nat) : DotProdState :=
  let s : DotProdState := ⟨pSrcA, pSrcB, 0, 0, true⟩
  let s := loopN dot_prod_body8 (blockSize >>> 3) s
  let s := dot_prod_merge s
  loopN dot_prod_body1 (blockSize % 8) s

/-- The value `arm_dot_prod_q31` stores in `*result`. -/
def arm_dot_prod_q31 (pSrcA pSrcB : Nat → Int) (blockSize : Nat) : Int :=
  (dot_prod_run pSrcA pSrcB blockSize).sum

/-- Specification: the single-accumulator sequential dot product, one term after the
other, each term the exact product shifted right by 14, each addition modulo `2 ^ 64`. -/
def dot_prod_naive (a b : Nat → Int) (n : Nat) : Int :=
  (List.range n).foldl (fun acc i => wrap64 (acc + (a i * b i) >>> (14 : Nat))) 0

/-- Specification: the sum of the truncated products as an unbounded integer. -/
def dot_prod_exact (a b : Nat → Int) (n : Nat) : Int :=
  ((List.range n).map (fun i => a i * b i / 2 ^ 14)).sum

/-! ## `arm_cmplx_dot_prod_f32` -/

/-- Local variables of `arm_cmplx_dot_prod_f32`.  The sample type `α` stands for
`float32_t`; the kernel only adds and multiplies samples. -/
structure CmplxDotProdState (α : Type) where
  pSrcA : Nat → α
  pSrcB : Nat → α
  real_sum : α
  imag_sum : α

/-- Body of the first loop of `arm_cmplx_dot_prod_f32` (lines 88-165): four complex
samples, that is eight array elements. -/
def cmplx_dot_prod_body4 {α : Type} [Add α] [Mul α] (s : CmplxDotProdState α) :
    CmplxDotProdState α :=
  let inAR1 := s.pSrcA 0
  let inBR1 := s.pSrcB 0
  let inAI1 := s.pSrcA 1
  let real_sum := s.real_sum + inAR1 * inBR1
  let inBI1 := s.pSrcB 1
  let inAR2 := s.pSrcA 2
  let inBR2 := s.pSrcB 2
  let imag_sum := s.imag_sum + inAI1 * inBI1
  let inAI2 := s.pSrcA 3
  let real_sum := real_sum + inAR2 * inBR2
  let inBI2 := s.pSrcB 3
  let inAR1 := s.pSrcA 4
  let imag_sum := imag_sum + inAI2 * inBI2
  let inBR1 := s.pSrcB 4
  let inAI1 := s.pSrcA 5
  let real_sum := real_sum + inAR1 * inBR1
  let inBI1 := s.pSrcB 5
  let inAR2 := s.pSrcA 6
  let imag_sum := imag_sum + inAI1 * inBI1
  let inBR2 := s.pSrcB 6
  let inAI2 := s.pSrcA 7
  let real_sum := real_sum + inAR2 * inBR2
  let inBI2 := s.pSrcB 7
  let pSrcA := advance s.pSrcA 8
  let imag_sum := imag_sum + inAI2 * inBI2
  let pSrcB := advance s.pSrcB 8
  ⟨pSrcA, pSrcB, real_sum, imag_sum⟩

/-- Body of the second loop of `arm_cmplx_dot_prod_f32` (lines 171-181): one complex
sample, each pointer post-incremented twice. -/
def cmplx_dot_prod_body1 {α : Type} [Add α] [Mul α] (s : CmplxDotProdState α) :
    CmplxDotProdState α :=
  let real_sum := s.real_sum + s.pSrcA 0 * s.pSrcB 0
  let pSrcA := advance s.pSrcA 1
  let pSrcB := advance s.pSrcB 1
  let imag_sum := s.imag_sum + pSrcA 0 * pSrcB 0
  let pSrcA := advance pSrcA 1
  let pSrcB := advance pSrcB 1
  ⟨pSrcA, pSrcB, real_sum, imag_sum⟩

/-- The pair `(*realResult, *imagResult)` stored by `arm_cmplx_dot_prod_f32`. -/
def arm_cmplx_dot_prod_f32 {α : Type} [Zero α] [Add α] [Mul α]
    (pSrcA pSrcB : Nat → α) (numSamples : Nat) : α × α :=
  let s : CmplxDotProdState α := ⟨pSrcA, pSrcB, 0, 0⟩
  let s := loopN cmplx_dot_prod_body4 (numSamples >>> 2) s
  let s := loopN cmplx_dot_prod_body1 (numSamples % 4) s
  (s.real_sum, s.imag_sum)

/-- Specification: the algorithm documented for the `cmplx_dot_prod` group (lines 43-51),
`realResult += A[2n]*B[2n] - A[2n+1]*B[2n+1]`,
`imagResult += A[2n]*B[2n+1] + A[2n+1]*B[2n]` for `n = 0, ..., numSamples - 1`. -/
def cmplx_dot_prod_documented {α : Type} [Zero α] [Add α] [Sub α] [Mul α]
    (pSrcA pSrcB : Nat → α) (numSamples : Nat) : α × α :=
  (List.range numSamples).foldl
    (fun r n => (r.1 + (pSrcA (2 * n) * pSrcB (2 * n) - pSrcA (2 * n + 1) * pSrcB (2 * n + 1)),
                 r.2 + (pSrcA (2 * n) * pSrcB (2 * n + 1) + pSrcA (2 * n + 1) * pSrcB (2 * n))))
    (0, 0)

/-! ## Memory and the filter initialisers -/

/-- A pointer to a caller-supplied buffer: the identity of the buffer. -/
abbrev Ptr := Nat

/-- The caller's buffers: the element at each index of each buffer.  Distinct pointers
are distinct, non-overlapping buffers. -/
abbrev Memory := Ptr → Nat → Int

/-- Arithmetic of `uint32_t`: `a - b`. -/
def sub32 (a b : Nat) : Nat := (a + 2 ^ 32 - b % 2 ^ 32) % 2 ^ 32

/-- Arithmetic of `uint32_t`: `a + b`. -/
def add32 (a b : Nat) : Nat := (a + b) % 2 ^ 32

/-- The byte count `n * sizeof(T)`, computed in `size_t`, which has 32 bits on the
target processors of the library (Cortex-R4/R5). -/
def mul_sizeof (n elemSize : Nat) : Nat := (n * elemSize) % 2 ^ 32

/-- The call `memset(p, 0, nbytes)` on a buffer whose elements are `elemSize` bytes wide:
the elements that lie within the first `nbytes` bytes become zero. -/
def memset_zero (mem : Memory) (p : Ptr) (nbytes elemSize : Nat) : Memory :=
  fun q i => if q = p ∧ (i + 1) * elemSize ≤ nbytes then 0 else mem q i

/-- Modelled from the spec: the status codes of `arm_math.h` (a header that is not among
the sources) that the initialisers use: success and the length-validation failure. -/
inductive arm_status where
  | ARM_MATH_SUCCESS
  | ARM_MATH_LENGTH_ERROR
  deriving DecidableEq, Repr

/-- Modelled from the spec: the instance structure of the Q31 FIR decimator, declared in
`arm_math.h`: decimation factor, tap count, coefficient buffer, state buffer. -/
structure arm_fir_decimate_instance_q31 where
  M : Nat
  numTaps : Nat
  pCoeffs : Ptr
  pState : Ptr
  deriving DecidableEq, Repr

/-- Modelled from the spec: the instance structure of the Q15 IIR lattice filter, declared
in `arm_math.h`: stage count, state buffer, reflection and ladder coefficient buffers. -/
structure arm_iir_lattice_instance_q15 where
  numStages : Nat
  pState : Ptr
  pkCoeffs : Ptr
  pvCoeffs : Ptr
  deriving DecidableEq, Repr

/-- Modelled from the spec: the instance structure of the Q31 LMS filter, declared in
`arm_math.h`: tap count, state buffer, coefficient buffer, step size, post shift. -/
structure arm_lms_instance_q31 where
  numTaps : Nat
  pState : Ptr
  pCoeffs : Ptr
  mu : Int
  postShift : Nat
  deriving DecidableEq, Repr

/-- What a call of `arm_fir_decimate_init_q31` leaves behind: the returned status, the
caller's buffers and the instance `*S`. -/
structure FirDecimateInit where
  status : arm_status
  mem : Memory
  S : arm_fir_decimate_instance_q31

/-- The function `arm_fir_decimate_init_q31` (lines 58-96).  The result is `none` when
`M = 0`: the test `blockSize % M` then divides by zero, which C leaves undefined. -/
def arm_fir_decimate_init_q31 (mem : Memory) (S : arm_fir_decimate_instance_q31)
    (numTaps M : Nat) (pCoeffs pState : Ptr) (blockSize : Nat) : Option FirDecimateInit :=
  if M = 0 then none
  else if blockSize % M ≠ 0 then
    some ⟨arm_status.ARM_MATH_LENGTH_ERROR, mem, S⟩
  else
    let S := { S with numTaps := numTaps }
    let S := { S with pCoeffs := pCoeffs }
    let mem := memset_zero mem pState (mul_sizeof (add32 numTaps (sub32 blockSize 1)) 4) 4
    let S := { S with pState := pState }
    let S := { S with M := M }
    some ⟨arm_status.ARM_MATH_SUCCESS, mem, S⟩

/-- The function `arm_iir_lattice_init_q15` (lines 46-70): the caller's buffers and the
instance `*S` after the call. -/
def arm_iir_lattice_init_q15 (mem : Memory) (S : arm_iir_lattice_instance_q15)
    (numStages : Nat) (pkCoeffs pvCoeffs pState : Ptr) (blockSize : Nat) :
    Memory × arm_iir_lattice_instance_q15 :=
  let S := { S with numStages := numStages }
  let S := { S with pkCoeffs := pkCoeffs }
  let S := { S with pvCoeffs := pvCoeffs }
  let mem := memset_zero mem pState (mul_sizeof (add32 numStages blockSize) 2) 2
  let S := { S with pState := pState }
  (mem, S)

/-- The function `arm_lms_init_q31` (lines 57-84): the caller's buffers and the instance
`*S` after the call. -/
def arm_lms_init_q31 (mem : Memory) (S : arm_lms_instance_q31)
    (numTaps : Nat) (pCoeffs pState : Ptr) (mu : Int) (blockSize postShift : Nat) :
    Memory × arm_lms_instance_q31 :=
  let S := { S with numTaps := numTaps }
  let S := { S with pCoeffs := pCoeffs }
  let mem := memset_zero mem pState (mul_sizeof (add32 numTaps (sub32 blockSize 1)) 4) 4
  let S := { S with pState := pState }
  let S := { S with mu := mu }
  let S := { S with postShift := postShift }
  (mem, S)

/-! ## `arm_offset_f32` -/

/-- A pointer to an element: the buffer and the index of the element in it. -/
structure ElemPtr where
  buf : Ptr
  idx : Nat
  deriving DecidableEq, Repr

/-- Pointer arithmetic `p + k` on a pointer to an element. -/
def ElemPtr.add (p : ElemPtr) (k : Nat) : ElemPtr := ⟨p.buf, p.idx + k⟩

/-- The caller's buffers of samples of type `α`.  Source and destination of a kernel are
pointers into these buffers, so that they may or may not overlap. -/
abbrev Buffers (α : Type) := Ptr → Nat → α

/-- The read `*p`. -/
def load {α : Type} (mem : Buffers α) (p : ElemPtr) : α := mem p.buf p.idx

/-- The write `*p = v`. -/
def store {α : Type} (mem : Buffers α) (p : ElemPtr) (v : α) : Buffers α :=
  fun q i => if q = p.buf ∧ i = p.idx then v else mem q i

/-- The buffers and the two pointers of `arm_offset_f32`.  The sample type `α` stands for
`float32_t`; the kernel only adds samples. -/
structure OffsetState (α : Type) where
  mem : Buffers α
  pSrc : ElemPtr
  pDst : ElemPtr

/-- Body of the first loop of `arm_offset_f32` (lines 71-150): eight samples, the reads
and writes in the order of the source. -/
def offset_body8 {α : Type} [Add α] (offset : α) (s : OffsetState α) : OffsetState α :=
  let mem := s.mem
  let in1 := load mem s.pSrc
  let in2 := load mem (s.pSrc.add 1)
  let in1 := in1 + offset
  let in3 := load mem (s.pSrc.add 2)
  let in2 := in2 + offset
  let in4 := load mem (s.pSrc.add 3)
  let in3 := in3 + offset
  let mem := store mem s.pDst in1
  let in4 := in4 + offset
  let mem := store mem (s.pDst.add 1) in2
  let in1 := load mem (s.pSrc.add 4)
  let mem := store mem (s.pDst.add 2) in3
  let in2 := load mem (s.pSrc.add 5)
  let mem := store mem (s.pDst.add 3) in4
  let in1 := in1 + offset
  let in3 := load mem (s.pSrc.add 6)
  let in2 := in2 + offset
  let in4 := load mem (s.pSrc.add 7)
  let in3 := in3 + offset
  let mem := store mem (s.pDst.add 4) in1
  let mem := store mem (s.pDst.add 5) in2
  let in4 := in4 + offset
  let mem := store mem (s.pDst.add 6) in3
  let pSrc := s.pSrc.add 8
  let mem := store mem (s.pDst.add 7) in4
  let pDst := s.pDst.add 8
  ⟨mem, pSrc, pDst⟩

/-- Body of the second loop of `arm_offset_f32` (lines 156-165): one sample. -/
def offset_body1 {α : Type} [Add α] (offset : α) (s : OffsetState α) : OffsetState α :=
  let in1 := load s.mem s.pSrc
  let pSrc := s.pSrc.add 1
  let mem := store s.mem s.pDst (in1 + offset)
  let pDst := s.pDst.add 1
  ⟨mem, pSrc, pDst⟩

/-- Final state of `arm_offset_f32 (pSrc, offset, pDst, blockSize)`. -/
def offset_run {α : Type} [Add α] (mem : Buffers α) (pSrc : ElemPtr) (offset : α)
    (pDst : ElemPtr) (blockSize : Nat) : OffsetState α :=
  let s : OffsetState α := ⟨mem, pSrc, pDst⟩
  let s := loopN (offset_body8 offset) (blockSize >>> 3) s
  loopN (offset_body1 offset) (blockSize % 8) s

/-- The buffers after `arm_offset_f32 (pSrc, offset, pDst, blockSize)`. -/
def arm_offset_f32 {α : Type} [Add α] (mem : Buffers α) (pSrc : ElemPtr) (offset : α)
    (pDst : ElemPtr) (blockSize : Nat) : Buffers α :=
  (offset_run mem pSrc offset pDst blockSize).mem

/-- Specification: the naive elementwise loop
`for (n = 0; n < blockSize; n++) pDst[n] = pSrc[n] + offset;` of the group
documentation (line 36). -/
def offset_naive {α : Type} [Add α] (mem : Buffers α) (pSrc : ElemPtr) (offset : α)
    (pDst : ElemPtr) (blockSize : Nat) : Buffers α :=
  (List.range blockSize).foldl
    (fun m n => store m (pDst.add n) (load m (pSrc.add n) + offset)) mem

/-! ## `arm_rms_q31` -/

/-- Conversion of an integer to `q31_t` or `int32_t` (two's complement, 32 bits). -/
def wrap32 (x : Int) : Int := (x + 2 ^ 31) % 2 ^ 32 - 2 ^ 31

/-- Modelled from the spec: the saturation primitive `__SSAT` of `arm_math.h`, a header
that is not among the sources.  The spec has the final format conversion clamp to the
representable range of the output format, its minimum and maximum; for the call
`__SSAT(sum >> 31, 31)`, whose output format is 1.31, that range is
`[-2 ^ 31, 2 ^ 31 - 1]`. -/
def __SSAT (x : Int) (fracBits : Nat) : Int :=
  if x < -(2 ^ fracBits) then -(2 ^ fracBits)
  else if 2 ^ fracBits - 1 < x then 2 ^ fracBits - 1
  else x

/-- Modelled from the spec: the primitive `__SSATA` of the `CCS` build, not among the
sources.  The spec has both builds reach the same semantics: an arithmetic right shift
followed by the saturation. -/
def __SSATA (x : Int) (shift fracBits : Nat) : Int := __SSAT (x >>> shift) fracBits

/-- The division of two `int32_t` values: the quotient truncated towards zero.  The result
is `none` where C leaves the division undefined: a zero divisor, and the quotient
`-2 ^ 31 / -1`, which is not representable. -/
def sdiv32 (a b : Int) : Option Int :=
  if b = 0 then none
  else if a = -(2 ^ 31) ∧ b = -1 then none
  else some (Int.tdiv a b)

/-- Local variables of `arm_rms_q31`.  `noOverflow` is a ghost flag: it is cleared by the
first `+=` whose exact sum is not representable in the 64-bit accumulator. -/
structure RmsState where
  pIn1 : Nat → Int
  sum : Int
  noOverflow : Bool

/-- The statement `sum += (q63_t) x * x`. -/
def RmsState.addSquare (s : RmsState) (x : Int) : RmsState :=
  { s with sum := wrap64 (s.sum + wrap64 (x * x))
           noOverflow := s.noOverflow && fits64 (s.sum + wrap64 (x * x)) }

/-- Body of the first loop of `arm_rms_q31` (lines 72-113): eight samples. -/
def rms_body8 (s : RmsState) : RmsState :=
  let in1 := s.pIn1 0
  let in2 := s.pIn1 1
  let s := s.addSquare in1
  let s := s.addSquare in2
  let in3 := s.pIn1 2
  let in4 := s.pIn1 3
  let s := s.addSquare in3
  let s := s.addSquare in4
  let in1 := s.pIn1 4
  let in2 := s.pIn1 5
  let s := s.addSquare in1
  let s := s.addSquare in2
  let in3 := s.pIn1 6
  let in4 := s.pIn1 7
  let s := s.addSquare in3
  let s := s.addSquare in4
  { s with pIn1 := advance s.pIn1 8 }

/-- Body of the second loop of `arm_rms_q31` (lines 119-128): one sample. -/
def rms_body1 (s : RmsState) : RmsState :=
  let x := s.pIn1 0
  let s := { s with pIn1 := advance s.pIn1 1 }
  s.addSquare x

/-- State of `arm_rms_q31 (pSrc, blockSize, pResult)` after its two loops (line 128). -/
def rms_accumulate (pSrc : Nat → Int) (blockSize : Nat) : RmsState :=
  let s : RmsState := ⟨pSrc, 0, true⟩
  let s := loopN rms_body8 (blockSize >>> 3) s
  loopN rms_body1 (blockSize % 8) s

/-- The value of `sum` after the conversion of lines 131-139: `__SSATA(sum, 31, 31)` in
the `CCS` build, `__SSAT(sum >> 31, 31)` otherwise. -/
def rms_saturated (CCS : Bool) (pSrc : Nat → Int) (blockSize : Nat) : Int :=
  let sum := (rms_accumulate pSrc blockSize).sum
  if CCS then __SSATA sum 31 31 else __SSAT (sum >>> (31 : Nat)) 31

/-- The argument `(q31_t) ((q31_t) sum / (int32_t) blockSize)` that `arm_rms_q31` passes to
the square-root primitive (line 142); `none` where the division is undefined. -/
def rms_sqrt_arg (CCS : Bool) (pSrc : Nat → Int) (blockSize : Nat) : Option Int :=
  (sdiv32 (wrap32 (rms_saturated CCS pSrc blockSize)) (wrap32 (blockSize : Int))).map wrap32

/-- The value `arm_rms_q31` leaves in `*pResult`.  The square-root primitive
`arm_sqrt_q31`, which is not among the sources, is a parameter: the value it writes for
each argument. -/
def arm_rms_q31 (arm_sqrt_q31 : Int → Int) (CCS : Bool) (pSrc : Nat → Int)
    (blockSize : Nat) : Option Int :=
  (rms_sqrt_arg CCS pSrc blockSize).map arm_sqrt_q31

/-- Specification: the sum of the squares accumulated one after the other in a wrapping
signed 64-bit accumulator. -/
def rms_sum_naive (x : Nat → Int) (n : Nat) : Int :=
  (List.range n).foldl (fun acc i => wrap64 (acc + x i * x i)) 0

/-- Specification: the sum of the squares as an unbounded integer. -/
def rms_sum_exact (x : Nat → Int) (n : Nat) : Int :=
  ((List.range n).map (fun i => x i * x i)).sum


/-- Final state of `arm_cmplx_dot_prod_f32`: the two loops of the kernel, of which
`arm_cmplx_dot_prod_f32` stores the two sums. -/
def cmplx_dot_prod_run {α : Type} [Zero α] [Add α] [Mul α]
    (pSrcA pSrcB : Nat → α) (numSamples : Nat) : CmplxDotProdState α :=
  let s : CmplxDotProdState α := ⟨pSrcA, pSrcB, 0, 0⟩
  let s := loopN cmplx_dot_prod_body4 (numSamples >>> 2) s
  loopN cmplx_dot_prod_body1 (numSamples % 4) s


/-- Specification: the sums named by the comments of the remainder loop of
`arm_cmplx_dot_prod_f32` (lines 173 and 175), `CReal = A[0]*B[0] + A[2]*B[2] + ...` and
`CImag = A[1]*B[1] + A[3]*B[3] + ...`, each accumulated from 0 in increasing index order,
one complex sample at a time. -/
def cmplx_dot_prod_naive {α : Type} [Zero α] [Add α] [Mul α]
    (pSrcA pSrcB : Nat → α) (numSamples : Nat) : α × α :=
  (List.range numSamples).foldl
    (fun r n => (r.1 + pSrcA (2 * n) * pSrcB (2 * n),
                 r.2 + pSrcA (2 * n + 1) * pSrcB (2 * n + 1)))
    (0, 0)

/-- The vector of the first `n` elements of `a` followed by the elements of `a2`. -/
def concat (a : Nat → Int) (n : Nat) (a2 : Nat → Int) : Nat → Int :=
  fun i => if i < n then a i else a2 (i - n)


/-! ## Definitions used in the statements and proofs -/

/-- Sum of the first `n` values of `f`. -/
def sumTo (f : Nat → Int) : Nat → Int
  | 0 => 0
  | n + 1 => sumTo f n + f n

/-- The truncated product of the two samples at offset `i`, as the code forms it. -/
def dot_term (A B : Nat → Int) (i : Nat) : Int := mul_shift14 (A i) (B i)

/-- The property "exactly the first `count` elements of buffer `p` were set to zero":
every element of `p` below `count` is zero afterwards and every element of `p` at an
index from `count` on is what it was before. -/
def ZeroFilledExactly (before after : Memory) (p : Ptr) (count : Int) : Prop :=
  ∀ i : Nat, ((i : Int) < count → after p i = 0) ∧ (count ≤ (i : Int) → after p i = before p i)

/-! ## Concrete inputs -/

/-- Eleven `q31_t` samples, the extreme values among them. -/
def sampleA : Nat → Int :=
  ofList [-2147483648, 2147483647, 5, -7, 100000, -2147483648, 1, 0, 2147483647, -3, 46341] 0

/-- Eleven `q31_t` samples, the extreme values among them. -/
def sampleB : Nat → Int :=
  ofList [-2147483648, 2147483647, -16385, 16383, 99999, 2147483647, -1, 12, 3, -2147483648, 46341] 0

/-- The vector all of whose samples are the most negative `q31_t`. -/
def allMin : Nat → Int := fun _ => -2147483648

/-- Four interleaved (real, imag) values: the complex samples `1 + 2i` and `3 + 4i`. -/
def cmplxA : Nat → Int := ofList [1, 2, 3, 4] 0

/-- Four interleaved (real, imag) values: the complex samples `5 + 6i` and `7 + 8i`. -/
def cmplxB : Nat → Int := ofList [5, 6, 7, 8] 0

/-- Buffers none of whose elements is zero: element `i` of buffer `p` is `100 * p + i + 1`. -/
def sampleMem : Memory := fun p i => 100 * (p : Int) + (i : Int) + 1

/-- An instance structure with arbitrary earlier content. -/
def staleFir : arm_fir_decimate_instance_q31 := ⟨9, 9, 9, 9⟩

/-- An instance structure with arbitrary earlier content. -/
def staleLattice : arm_iir_lattice_instance_q15 := ⟨9, 9, 9, 9⟩

/-- An instance structure with arbitrary earlier content. -/
def staleLms : arm_lms_instance_q31 := ⟨9, 9, 9, 9, 9⟩

/-- The buffers in which `pDst[i]` holds `pSrc[i] + offset`, with `pSrc[i]` read from
`mem`, for every `i < n`, and every other element is as in `mem`. -/
def offset_result {α : Type} [Add α] (mem : Buffers α) (pSrc : ElemPtr) (offset : α)
    (pDst : ElemPtr) (n : Nat) : Buffers α :=
  fun q x =>
    if q = pDst.buf ∧ pDst.idx ≤ x ∧ x < pDst.idx + n then
      mem pSrc.buf (pSrc.idx + (x - pDst.idx)) + offset
    else mem q x

/-- The destination lies in another buffer than the source, or in the same buffer and
does not start after the source (the two may then coincide: in-place use). -/
def DstNotAfterSrc (pSrc pDst : ElemPtr) : Prop :=
  pSrc.buf ≠ pDst.buf ∨ pDst.idx ≤ pSrc.idx

instance (pSrc pDst : ElemPtr) : Decidable (DstNotAfterSrc pSrc pDst) := by
  unfold DstNotAfterSrc; infer_instance


/-- The square of the sample at offset `i`, as the code forms it: `(q63_t) x * x`. -/
def sq_term (p : Nat → Int) (i : Nat) : Int := wrap64 (p i * p i)


/-- The property "the history region is all zeros": every element of buffer `p` below
`count` is zero. -/
def HistoryZero (mem : Memory) (p : Ptr) (count : Int) : Prop :=
  ∀ i : Nat, (i : Int) < count → mem p i = 0

/-- The vector all of whose samples are `2 ^ 15`. -/
def allPow15 : Nat → Int := fun _ => 32768

/-- The vector all of whose samples are `800000000`: nine of its squares add up to a
value between `2 ^ 62` and `2 ^ 63`. -/
def allLarge : Nat → Int := fun _ => 800000000

/-- The vector all of whose samples are zero. -/
def allZero : Nat → Int := fun _ => 0

/-- Eight `q31_t` samples scaled down by 3 bits: every magnitude is at most `2 ^ 28`. -/
def scaledX : Nat → Int :=
  ofList [268435456, -268435456, 5, -7, 100000, -268435456, 268435456, 268435455] 0


/-- Buffers that agree with `sampleMem` on the elements 2 to 18 of buffer 1 and are zero
everywhere else. -/
def sampleMemElsewhereZero : Memory :=
  fun p i => if p = 1 ∧ 2 ≤ i ∧ i < 19 then sampleMem p i else 0


/-- No element of the source is overwritten before `arm_offset_f32`, run on `n` elements,
reads it: the destination lies in another buffer than the source, or in the same buffer
and does not start after the source (in-place use included), or in the same buffer and
starts at or after the end of the `n` source elements. -/
def OffsetSafe (pSrc pDst : ElemPtr) (n : Nat) : Prop :=
  pSrc.buf ≠ pDst.buf ∨ pDst.idx ≤ pSrc.idx ∨ pSrc.idx + n ≤ pDst.idx

instance (pSrc pDst : ElemPtr) (n : Nat) : Decidable (OffsetSafe pSrc pDst n) := by
  unfold OffsetSafe; infer_instance


/-! ## Lemmas on the machine arithmetic -/

theorem wrap64_of_fits {x : Int} (h1 : -(2 ^ 63) ≤ x) (h2 : x < 2 ^ 63) : wrap64 x = x := by
  unfold wrap64; omega

theorem wrap64_lower (x : Int) : -(2 ^ 63) ≤ wrap64 x := by
  unfold wrap64; omega

theorem wrap64_upper (x : Int) : wrap64 x < 2 ^ 63 := by
  unfold wrap64; omega

theorem wrap64_idem (x : Int) : wrap64 (wrap64 x) = wrap64 x := by
  unfold wrap64; omega

theorem wrap64_add_left (x y : Int) : wrap64 (wrap64 x + y) = wrap64 (x + y) := by
  unfold wrap64; omega

theorem wrap64_add_congr {x x' : Int} (h : wrap64 x = wrap64 x') (y : Int) :
    wrap64 (x + y) = wrap64 (x' + y) := by
  rw [← wrap64_add_left x, ← wrap64_add_left x', h]

theorem fits64_iff (x : Int) : fits64 x = true ↔ -(2 ^ 63) ≤ x ∧ x < 2 ^ 63 := by
  simp [fits64]

theorem sumTo_add (f : Nat → Int) (m n : Nat) :
    sumTo f (m + n) = sumTo f m + sumTo (advance f m) n := by
  induction n with
  | zero => simp [sumTo]
  | succ n ih => rw [← Nat.add_assoc]; simp only [sumTo, ih, advance]; rw [Nat.add_comm n m]; ring

theorem sumTo_congr {f g : Nat → Int} {n : Nat} (h : ∀ i, i < n → f i = g i) :
    sumTo f n = sumTo g n := by
  induction n with
  | zero => rfl
  | succ n ih =>
    simp only [sumTo]
    rw [ih (fun i hi => h i (Nat.lt_succ_of_lt hi)), h n (Nat.lt_succ_self n)]

/-! ## Lemmas on `arm_dot_prod_q31` -/

theorem advance_zero {α : Type} (p : Nat → α) : advance p 0 = p := rfl

theorem advance_advance {α : Type} (p : Nat → α) (m n : Nat) :
    advance (advance p m) n = advance p (m + n) := by
  funext i; simp only [advance]; rw [Nat.add_comm m n, Nat.add_assoc]

theorem dot_prod_body8_sum (s : DotProdState) :
    (dot_prod_body8 s).sum =
      wrap64 (wrap64 (wrap64 (wrap64 (s.sum + dot_term s.pSrcA s.pSrcB 0)
        + dot_term s.pSrcA s.pSrcB 2) + dot_term s.pSrcA s.pSrcB 4)
        + dot_term s.pSrcA s.pSrcB 6) := rfl

theorem dot_prod_body8_sum1 (s : DotProdState) :
    (dot_prod_body8 s).sum1 =
      wrap64 (wrap64 (wrap64 (wrap64 (s.sum1 + dot_term s.pSrcA s.pSrcB 1)
        + dot_term s.pSrcA s.pSrcB 3) + dot_term s.pSrcA s.pSrcB 5)
        + dot_term s.pSrcA s.pSrcB 7) := rfl

theorem sumTo_eight (f : Nat → Int) :
    sumTo f 8 = f 0 + f 1 + f 2 + f 3 + f 4 + f 5 + f 6 + f 7 := by
  simp [sumTo]

theorem dot_prod_body8_noOverflow (s : DotProdState) :
    (dot_prod_body8 s).noOverflow = true ↔
      s.noOverflow = true ∧
      fits64 (s.sum + dot_term s.pSrcA s.pSrcB 0) = true ∧
      fits64 (s.sum1 + dot_term s.pSrcA s.pSrcB 1) = true ∧
      fits64 (wrap64 (s.sum + dot_term s.pSrcA s.pSrcB 0) + dot_term s.pSrcA s.pSrcB 2) = true ∧
      fits64 (wrap64 (s.sum1 + dot_term s.pSrcA s.pSrcB 1) + dot_term s.pSrcA s.pSrcB 3) = true ∧
      fits64 (wrap64 (wrap64 (s.sum + dot_term s.pSrcA s.pSrcB 0) + dot_term s.pSrcA s.pSrcB 2)
        + dot_term s.pSrcA s.pSrcB 4) = true ∧
      fits64 (wrap64 (wrap64 (s.sum1 + dot_term s.pSrcA s.pSrcB 1) + dot_term s.pSrcA s.pSrcB 3)
        + dot_term s.pSrcA s.pSrcB 5) = true ∧
      fits64 (wrap64 (wrap64 (wrap64 (s.sum + dot_term s.pSrcA s.pSrcB 0)
        + dot_term s.pSrcA s.pSrcB 2) + dot_term s.pSrcA s.pSrcB 4)
        + dot_term s.pSrcA s.pSrcB 6) = true ∧
      fits64 (wrap64 (wrap64 (wrap64 (s.sum1 + dot_term s.pSrcA s.pSrcB 1)
        + dot_term s.pSrcA s.pSrcB 3) + dot_term s.pSrcA s.pSrcB 5)
        + dot_term s.pSrcA s.pSrcB 7) = true := by
  simp only [dot_prod_body8, DotProdState.addSum, DotProdState.addSum1, Bool.and_eq_true,
    dot_term, and_assoc]

/-- One pass of the unrolled loop adds the eight terms to `sum + sum1`, modulo `2 ^ 64`. -/
theorem dot_prod_body8_total (s : DotProdState) (X : Int) :
    wrap64 ((dot_prod_body8 s).sum + (dot_prod_body8 s).sum1 + X) =
      wrap64 (s.sum + s.sum1 + sumTo (dot_term s.pSrcA s.pSrcB) 8 + X) := by
  rw [dot_prod_body8_sum, dot_prod_body8_sum1, sumTo_eight]
  unfold wrap64; omega

/-- The unrolled loop adds the first `8 * k` terms to `sum + sum1`, modulo `2 ^ 64`, and
advances both pointers by `8 * k`. -/
theorem dot_prod_loop8_mod (k : Nat) (s : DotProdState) :
    (loopN dot_prod_body8 k s).pSrcA = advance s.pSrcA (8 * k) ∧
    (loopN dot_prod_body8 k s).pSrcB = advance s.pSrcB (8 * k) ∧
    wrap64 ((loopN dot_prod_body8 k s).sum + (loopN dot_prod_body8 k s).sum1) =
      wrap64 (s.sum + s.sum1 + sumTo (dot_term s.pSrcA s.pSrcB) (8 * k)) := by
  induction k generalizing s with
  | zero => simp [loopN, sumTo, advance_zero]
  | succ k ih =>
    obtain ⟨hA, hB, hS⟩ := ih (dot_prod_body8 s)
    have h8 : 8 * (k + 1) = 8 + 8 * k := by ring
    refine ⟨?_, ?_, ?_⟩
    · show (loopN dot_prod_body8 k (dot_prod_body8 s)).pSrcA = _
      rw [hA, h8]; exact advance_advance s.pSrcA 8 (8 * k)
    · show (loopN dot_prod_body8 k (dot_prod_body8 s)).pSrcB = _
      rw [hB, h8]; exact advance_advance s.pSrcB 8 (8 * k)
    · show wrap64 ((loopN dot_prod_body8 k (dot_prod_body8 s)).sum
        + (loopN dot_prod_body8 k (dot_prod_body8 s)).sum1) = _
      rw [hS, h8, sumTo_add, dot_prod_body8_total, ← Int.add_assoc]
      rfl

/-- The remainder loop adds the next `k` terms to `sum`, modulo `2 ^ 64`. -/
theorem dot_prod_loop1_mod (k : Nat) (s : DotProdState) (hs : wrap64 s.sum = s.sum) :
    (loopN dot_prod_body1 k s).sum =
      wrap64 (s.sum + sumTo (dot_term s.pSrcA s.pSrcB) k) := by
  induction k generalizing s with
  | zero => simp [loopN, sumTo, hs]
  | succ k ih =>
    show (loopN dot_prod_body1 k (dot_prod_body1 s)).sum = _
    rw [ih (dot_prod_body1 s) (wrap64_idem _), Nat.add_comm k 1, sumTo_add]
    show wrap64 (wrap64 (s.sum + dot_term s.pSrcA s.pSrcB 0)
      + sumTo (dot_term (advance s.pSrcA 1) (advance s.pSrcB 1)) k) = _
    rw [wrap64_add_left]
    simp only [sumTo, Int.zero_add, Int.add_assoc]
    rfl

/-- What `arm_dot_prod_q31` returns: the sum of all the terms, reduced to 64 bits. -/
theorem arm_dot_prod_q31_eq_wrap (A B : Nat → Int) (n : Nat) :
    arm_dot_prod_q31 A B n = wrap64 (sumTo (dot_term A B) n) := by
  obtain ⟨hA, hB, hS⟩ := dot_prod_loop8_mod (n >>> 3) ⟨A, B, 0, 0, true⟩
  unfold arm_dot_prod_q31 dot_prod_run
  simp only []
  rw [dot_prod_loop1_mod _ _ (wrap64_idem _)]
  simp only [dot_prod_merge]
  rw [hA, hB, wrap64_add_left, wrap64_add_congr hS]
  simp only [Int.add_zero, Int.zero_add]
  have hn : n = 8 * (n >>> 3) + n % 8 := by
    rw [Nat.shiftRight_eq_div_pow]; omega
  conv_rhs => rw [hn, sumTo_add]
  rfl

/-- The product of two `q31_t` values is representable in 64 bits. -/
theorem wrap64_mul_of_isQ31 {a b : Int} (ha : isQ31 a) (hb : isQ31 b) :
    wrap64 (a * b) = a * b := by
  obtain ⟨ha1, ha2⟩ := ha
  obtain ⟨hb1, hb2⟩ := hb
  have h1 : 0 ≤ (2 ^ 31 + a) * (2 ^ 31 - b) := mul_nonneg (by linarith) (by linarith)
  have h2 : 0 ≤ (2 ^ 31 - a) * (2 ^ 31 + b) := mul_nonneg (by linarith) (by linarith)
  have h3 : 0 ≤ (2 ^ 31 + a) * (2 ^ 31 + b) := mul_nonneg (by linarith) (by linarith)
  have h4 : 0 ≤ (2 ^ 31 - a) * (2 ^ 31 - b) := mul_nonneg (by linarith) (by linarith)
  apply wrap64_of_fits <;> nlinarith

theorem dot_prod_naive_succ (a b : Nat → Int) (n : Nat) :
    dot_prod_naive a b (n + 1) = wrap64 (dot_prod_naive a b n + (a n * b n) >>> (14 : Nat)) := by
  simp [dot_prod_naive, List.range_succ, List.foldl_append]

/-- The naive accumulation is the sum of its terms, reduced to 64 bits. -/
theorem dot_prod_naive_eq_wrap (a b : Nat → Int) (n : Nat) :
    dot_prod_naive a b n = wrap64 (sumTo (fun i => (a i * b i) >>> (14 : Nat)) n) := by
  induction n with
  | zero => simp [dot_prod_naive, sumTo, wrap64]
  | succ n ih => rw [dot_prod_naive_succ, ih, wrap64_add_left]; rfl

/-! ### The ghost flag: soundness -/

theorem dot_prod_body8_sound (s : DotProdState) (h : (dot_prod_body8 s).noOverflow = true) :
    s.noOverflow = true ∧
    (dot_prod_body8 s).sum + (dot_prod_body8 s).sum1 =
      s.sum + s.sum1 + sumTo (dot_term s.pSrcA s.pSrcB) 8 := by
  rw [dot_prod_body8_noOverflow] at h
  simp only [fits64_iff] at h
  rw [dot_prod_body8_sum, dot_prod_body8_sum1, sumTo_eight]
  refine ⟨h.1, ?_⟩
  unfold wrap64 at *
  omega

theorem dot_prod_loop8_sound (k : Nat) (s : DotProdState)
    (h : (loopN dot_prod_body8 k s).noOverflow = true) :
    s.noOverflow = true ∧
    (loopN dot_prod_body8 k s).sum + (loopN dot_prod_body8 k s).sum1 =
      s.sum + s.sum1 + sumTo (dot_term s.pSrcA s.pSrcB) (8 * k) := by
  induction k generalizing s with
  | zero => exact ⟨h, by simp [loopN, sumTo]⟩
  | succ k ih =>
    obtain ⟨h1, h2⟩ := ih (dot_prod_body8 s) h
    obtain ⟨h3, h4⟩ := dot_prod_body8_sound s h1
    refine ⟨h3, ?_⟩
    show (loopN dot_prod_body8 k (dot_prod_body8 s)).sum
      + (loopN dot_prod_body8 k (dot_prod_body8 s)).sum1 = _
    have h8 : 8 * (k + 1) = 8 + 8 * k := by ring
    rw [h2, h4, h8, sumTo_add, Int.add_assoc]
    rfl

theorem dot_prod_loop1_sound (k : Nat) (s : DotProdState)
    (h : (loopN dot_prod_body1 k s).noOverflow = true) :
    s.noOverflow = true ∧
    (loopN dot_prod_body1 k s).sum = s.sum + sumTo (dot_term s.pSrcA s.pSrcB) k := by
  induction k generalizing s with
  | zero => exact ⟨h, by simp [loopN, sumTo]⟩
  | succ k ih =>
    obtain ⟨h1, h2⟩ := ih (dot_prod_body1 s) h
    have h3 : s.noOverflow = true ∧ fits64 (s.sum + dot_term s.pSrcA s.pSrcB 0) = true := by
      simpa [dot_prod_body1, DotProdState.addSum, dot_term] using h1
    refine ⟨h3.1, ?_⟩
    show (loopN dot_prod_body1 k (dot_prod_body1 s)).sum = _
    rw [h2, Nat.add_comm k 1, sumTo_add]
    show wrap64 (s.sum + dot_term s.pSrcA s.pSrcB 0)
      + sumTo (dot_term (advance s.pSrcA 1) (advance s.pSrcB 1)) k = _
    have h5 := (fits64_iff _).1 h3.2
    rw [wrap64_of_fits h5.1 h5.2]
    simp only [sumTo, Int.zero_add, Int.add_assoc]
    rfl

/-- Soundness of the ghost flag: when no addition of the run left the 64-bit range, the
result is the exact sum of the terms. -/
theorem dot_prod_run_sound (A B : Nat → Int) (n : Nat)
    (h : (dot_prod_run A B n).noOverflow = true) :
    arm_dot_prod_q31 A B n = sumTo (dot_term A B) n := by
  unfold arm_dot_prod_q31
  unfold dot_prod_run at h ⊢
  simp only [] at h ⊢
  obtain ⟨h1, h2⟩ := dot_prod_loop1_sound _ _ h
  have h3 : (loopN dot_prod_body8 (n >>> 3) ⟨A, B, 0, 0, true⟩).noOverflow = true ∧
      fits64 ((loopN dot_prod_body8 (n >>> 3) ⟨A, B, 0, 0, true⟩).sum
        + (loopN dot_prod_body8 (n >>> 3) ⟨A, B, 0, 0, true⟩).sum1) = true := by
    simpa [dot_prod_merge] using h1
  obtain ⟨_, h4⟩ := dot_prod_loop8_sound _ _ h3.1
  obtain ⟨hA, hB, _⟩ := dot_prod_loop8_mod (n >>> 3) ⟨A, B, 0, 0, true⟩
  have h5 := (fits64_iff _).1 h3.2
  rw [h2]
  simp only [dot_prod_merge]
  rw [wrap64_of_fits h5.1 h5.2, h4, hA, hB]
  simp only [Int.add_zero, Int.zero_add]
  have hn : n = 8 * (n >>> 3) + n % 8 := by
    rw [Nat.shiftRight_eq_div_pow]; omega
  conv_rhs => rw [hn, sumTo_add]
  rfl

/-! ### The ghost flag: no overflow below `2 ^ 15` samples -/

/-- For `q31_t` samples the term is the floor of the exact product over `2 ^ 14`, and its
magnitude is at most `2 ^ 48`. -/
theorem mul_shift14_of_isQ31 {a b : Int} (ha : isQ31 a) (hb : isQ31 b) :
    mul_shift14 a b = a * b / 2 ^ 14 ∧
      -(2 ^ 48) ≤ mul_shift14 a b ∧ mul_shift14 a b ≤ 2 ^ 48 := by
  have hw := wrap64_mul_of_isQ31 ha hb
  have hr1 := wrap64_lower (a * b)
  have hr2 := wrap64_upper (a * b)
  obtain ⟨ha1, ha2⟩ := ha
  obtain ⟨hb1, hb2⟩ := hb
  have h1 : 0 ≤ (2 ^ 31 + a) * (2 ^ 31 - b) := mul_nonneg (by linarith) (by linarith)
  have h2 : 0 ≤ (2 ^ 31 - a) * (2 ^ 31 + b) := mul_nonneg (by linarith) (by linarith)
  have h3 : 0 ≤ (2 ^ 31 + a) * (2 ^ 31 + b) := mul_nonneg (by linarith) (by linarith)
  have h4 : 0 ≤ (2 ^ 31 - a) * (2 ^ 31 - b) := mul_nonneg (by linarith) (by linarith)
  have hu : a * b ≤ 2 ^ 62 := by nlinarith
  have hl : -(2 ^ 62) ≤ a * b := by nlinarith
  unfold mul_shift14
  rw [hw, Int.shiftRight_eq_div_pow]
  generalize a * b = p at hu hl
  norm_num
  omega

theorem dot_prod_body8_bound (s : DotProdState) (c : Int)
    (hT : ∀ i, i < 8 → -(2 ^ 48) ≤ dot_term s.pSrcA s.pSrcB i ∧
      dot_term s.pSrcA s.pSrcB i ≤ 2 ^ 48)
    (hs : -c ≤ s.sum ∧ s.sum ≤ c) (hs1 : -c ≤ s.sum1 ∧ s.sum1 ≤ c)
    (hc : c + 2 ^ 50 < 2 ^ 63) :
    (dot_prod_body8 s).noOverflow = s.noOverflow ∧
    (-(c + 2 ^ 50) ≤ (dot_prod_body8 s).sum ∧ (dot_prod_body8 s).sum ≤ c + 2 ^ 50) ∧
    (-(c + 2 ^ 50) ≤ (dot_prod_body8 s).sum1 ∧ (dot_prod_body8 s).sum1 ≤ c + 2 ^ 50) := by
  have t0 := hT 0 (by decide)
  have t1 := hT 1 (by decide)
  have t2 := hT 2 (by decide)
  have t3 := hT 3 (by decide)
  have t4 := hT 4 (by decide)
  have t5 := hT 5 (by decide)
  have t6 := hT 6 (by decide)
  have t7 := hT 7 (by decide)
  refine ⟨?_, ?_, ?_⟩
  · rw [Bool.eq_iff_iff, dot_prod_body8_noOverflow]
    simp only [fits64_iff]
    unfold wrap64
    constructor
    · intro h; exact h.1
    · intro h; refine ⟨h, ?_⟩; omega
  · rw [dot_prod_body8_sum]; unfold wrap64; omega
  · rw [dot_prod_body8_sum1]; unfold wrap64; omega

theorem dot_prod_loop8_bound (k : Nat) (s : DotProdState) (c : Int)
    (hT : ∀ i, i < 8 * k → -(2 ^ 48) ≤ dot_term s.pSrcA s.pSrcB i ∧
      dot_term s.pSrcA s.pSrcB i ≤ 2 ^ 48)
    (hs : -c ≤ s.sum ∧ s.sum ≤ c) (hs1 : -c ≤ s.sum1 ∧ s.sum1 ≤ c)
    (hc : c + (k : Int) * 2 ^ 50 < 2 ^ 63) :
    (loopN dot_prod_body8 k s).noOverflow = s.noOverflow ∧
    (-(c + (k : Int) * 2 ^ 50) ≤ (loopN dot_prod_body8 k s).sum ∧
      (loopN dot_prod_body8 k s).sum ≤ c + (k : Int) * 2 ^ 50) ∧
    (-(c + (k : Int) * 2 ^ 50) ≤ (loopN dot_prod_body8 k s).sum1 ∧
      (loopN dot_prod_body8 k s).sum1 ≤ c + (k : Int) * 2 ^ 50) := by
  induction k generalizing s c with
  | zero => simpa [loopN] using ⟨hs, hs1⟩
  | succ k ih =>
    have hk : ((k + 1 : Nat) : Int) = (k : Int) + 1 := by push_cast; rfl
    rw [hk] at hc ⊢
    obtain ⟨b1, b2, b3⟩ := dot_prod_body8_bound s c
      (fun i hi => hT i (by omega)) hs hs1 (by omega)
    have hT2 : ∀ i, i < 8 * k →
        -(2 ^ 48) ≤ dot_term (dot_prod_body8 s).pSrcA (dot_prod_body8 s).pSrcB i ∧
        dot_term (dot_prod_body8 s).pSrcA (dot_prod_body8 s).pSrcB i ≤ 2 ^ 48 :=
      fun i hi => hT (i + 8) (by omega)
    obtain ⟨r1, r2, r3⟩ := ih (dot_prod_body8 s) (c + 2 ^ 50) hT2 b2 b3 (by omega)
    refine ⟨?_, ?_, ?_⟩
    · show (loopN dot_prod_body8 k (dot_prod_body8 s)).noOverflow = _
      rw [r1, b1]
    · show _ ≤ (loopN dot_prod_body8 k (dot_prod_body8 s)).sum ∧
        (loopN dot_prod_body8 k (dot_prod_body8 s)).sum ≤ _
      omega
    · show _ ≤ (loopN dot_prod_body8 k (dot_prod_body8 s)).sum1 ∧
        (loopN dot_prod_body8 k (dot_prod_body8 s)).sum1 ≤ _
      omega

theorem dot_prod_loop1_bound (k : Nat) (s : DotProdState) (c : Int)
    (hT : ∀ i, i < k → -(2 ^ 48) ≤ dot_term s.pSrcA s.pSrcB i ∧
      dot_term s.pSrcA s.pSrcB i ≤ 2 ^ 48)
    (hs : -c ≤ s.sum ∧ s.sum ≤ c)
    (hc : c + (k : Int) * 2 ^ 48 < 2 ^ 63) :
    (loopN dot_prod_body1 k s).noOverflow = s.noOverflow := by
  induction k generalizing s c with
  | zero => rfl
  | succ k ih =>
    have hk : ((k + 1 : Nat) : Int) = (k : Int) + 1 := by push_cast; rfl
    rw [hk] at hc
    have t0 := hT 0 (by omega)
    have hf : fits64 (s.sum + dot_term s.pSrcA s.pSrcB 0) = true := by
      rw [fits64_iff]; omega
    have hb : -(c + 2 ^ 48) ≤ (dot_prod_body1 s).sum ∧ (dot_prod_body1 s).sum ≤ c + 2 ^ 48 := by
      show _ ≤ wrap64 (s.sum + dot_term s.pSrcA s.pSrcB 0) ∧
        wrap64 (s.sum + dot_term s.pSrcA s.pSrcB 0) ≤ _
      have h5 := (fits64_iff _).1 hf
      rw [wrap64_of_fits h5.1 h5.2]; omega
    have hT2 : ∀ i, i < k →
        -(2 ^ 48) ≤ dot_term (dot_prod_body1 s).pSrcA (dot_prod_body1 s).pSrcB i ∧
        dot_term (dot_prod_body1 s).pSrcA (dot_prod_body1 s).pSrcB i ≤ 2 ^ 48 :=
      fun i hi => hT (i + 1) (by omega)
    show (loopN dot_prod_body1 k (dot_prod_body1 s)).noOverflow = _
    rw [ih (dot_prod_body1 s) (c + 2 ^ 48) hT2 hb (by omega)]
    show (s.noOverflow && fits64 (s.sum + dot_term s.pSrcA s.pSrcB 0)) = _
    rw [hf, Bool.and_true]

theorem dot_prod_exact_eq_sumTo (a b : Nat → Int) (n : Nat) :
    dot_prod_exact a b n = sumTo (fun i => a i * b i / 2 ^ 14) n := by
  induction n with
  | zero => rfl
  | succ n ih =>
    unfold dot_prod_exact at ih ⊢
    rw [List.range_succ, List.map_append, List.sum_append, ih]
    simp [sumTo]

theorem sumTo_const (c : Int) (n : Nat) : sumTo (fun _ => c) n = (n : Int) * c := by
  induction n with
  | zero => simp [sumTo]
  | succ n ih => simp only [sumTo, ih]; push_cast; ring

/-- Below `2 ^ 15` samples of type `q31_t` no addition of the run leaves the 64-bit range. -/
theorem dot_prod_run_noOverflow (a b : Nat → Int) (n : Nat) (hn : n < 2 ^ 15)
    (hQ : ∀ i, i < n → isQ31 (a i) ∧ isQ31 (b i)) :
    (dot_prod_run a b n).noOverflow = true := by
  have hT : ∀ i, i < n → -(2 ^ 48) ≤ dot_term a b i ∧ dot_term a b i ≤ 2 ^ 48 :=
    fun i hi => (mul_shift14_of_isQ31 (hQ i hi).1 (hQ i hi).2).2
  have hdiv : n >>> 3 = n / 8 := by rw [Nat.shiftRight_eq_div_pow]
  have hk : ((n / 8 : Nat) : Int) * 8 + ((n % 8 : Nat) : Int) = (n : Int) := by omega
  have hn2 : (n : Int) < 2 ^ 15 := by exact_mod_cast hn
  obtain ⟨hA, hB, _⟩ := dot_prod_loop8_mod (n / 8) ⟨a, b, 0, 0, true⟩
  obtain ⟨r1, r2, r3⟩ := dot_prod_loop8_bound (n / 8) ⟨a, b, 0, 0, true⟩ 0
    (fun i hi => hT i (by omega)) (by simp) (by simp) (by omega)
  unfold dot_prod_run
  simp only [hdiv]
  have hm : (dot_prod_merge (loopN dot_prod_body8 (n / 8) ⟨a, b, 0, 0, true⟩)).noOverflow
      = true := by
    show ((loopN dot_prod_body8 (n / 8) ⟨a, b, 0, 0, true⟩).noOverflow && fits64 _) = true
    rw [r1, Bool.true_and, fits64_iff]
    omega
  rw [dot_prod_loop1_bound (n % 8) _ (((n / 8 : Nat) : Int) * 2 ^ 51) ?_ ?_ ?_, hm]
  · intro i hi
    show -(2 ^ 48) ≤ dot_term (loopN dot_prod_body8 (n / 8) ⟨a, b, 0, 0, true⟩).pSrcA
        (loopN dot_prod_body8 (n / 8) ⟨a, b, 0, 0, true⟩).pSrcB i ∧
      dot_term (loopN dot_prod_body8 (n / 8) ⟨a, b, 0, 0, true⟩).pSrcA
        (loopN dot_prod_body8 (n / 8) ⟨a, b, 0, 0, true⟩).pSrcB i ≤ 2 ^ 48
    rw [hA, hB]
    exact hT (i + 8 * (n / 8)) (by omega)
  · show _ ≤ wrap64 _ ∧ wrap64 _ ≤ _
    rw [wrap64_of_fits (by omega) (by omega)]
    omega
  · omega

/-! ## Lemmas on the initialisers -/

theorem memset_zero_other (mem : Memory) (p q : Ptr) (nbytes elemSize : Nat) (h : q ≠ p) :
    memset_zero mem p nbytes elemSize q = mem q := by
  funext i; simp [memset_zero, h]

theorem memset_zero_filled (mem : Memory) (p : Ptr) (n elemSize : Nat) (he : 0 < elemSize) :
    ZeroFilledExactly mem (memset_zero mem p (elemSize * n) elemSize) p (n : Int) := by
  intro i
  have hiff : (i + 1) * elemSize ≤ elemSize * n ↔ i < n := by
    rw [Nat.mul_comm elemSize n]
    exact ⟨fun h => Nat.lt_of_succ_le (Nat.le_of_mul_le_mul_right h he),
      fun h => Nat.mul_le_mul_right elemSize h⟩
  constructor
  · intro h
    have h2 : i < n := by exact_mod_cast h
    simp [memset_zero, hiff, h2]
  · intro h
    have h2 : ¬ i < n := by
      intro h3
      have : (i : Int) < (n : Int) := by exact_mod_cast h3
      omega
    simp [memset_zero, hiff, h2]

/-- The byte count of the `memset` in the FIR and LMS initialisers, when nothing wraps. -/
theorem taps_block_bytes (numTaps blockSize : Nat) (h1 : 1 ≤ numTaps + blockSize)
    (h2 : numTaps + blockSize - 1 < 2 ^ 30) :
    mul_sizeof (add32 numTaps (sub32 blockSize 1)) 4 = 4 * (numTaps + blockSize - 1) := by
  unfold mul_sizeof add32 sub32; omega

/-- The byte count of the `memset` in the lattice initialiser, when nothing wraps. -/
theorem stages_block_bytes (numStages blockSize : Nat) (h : numStages + blockSize < 2 ^ 31) :
    mul_sizeof (add32 numStages blockSize) 2 = 2 * (numStages + blockSize) := by
  unfold mul_sizeof add32; omega

theorem arm_fir_decimate_init_q31_success (mem : Memory) (S : arm_fir_decimate_instance_q31)
    (numTaps M : Nat) (pCoeffs pState : Ptr) (blockSize : Nat)
    (hM : 1 ≤ M) (hdiv : blockSize % M = 0) :
    arm_fir_decimate_init_q31 mem S numTaps M pCoeffs pState blockSize =
      some ⟨arm_status.ARM_MATH_SUCCESS,
        memset_zero mem pState (mul_sizeof (add32 numTaps (sub32 blockSize 1)) 4) 4,
        ⟨M, numTaps, pCoeffs, pState⟩⟩ := by
  have h0 : M ≠ 0 := by omega
  simp [arm_fir_decimate_init_q31, h0, hdiv]

theorem arm_fir_decimate_init_q31_failure (mem : Memory) (S : arm_fir_decimate_instance_q31)
    (numTaps M : Nat) (pCoeffs pState : Ptr) (blockSize : Nat)
    (hM : 1 ≤ M) (hdiv : blockSize % M ≠ 0) :
    arm_fir_decimate_init_q31 mem S numTaps M pCoeffs pState blockSize =
      some ⟨arm_status.ARM_MATH_LENGTH_ERROR, mem, S⟩ := by
  have h0 : M ≠ 0 := by omega
  simp [arm_fir_decimate_init_q31, h0, hdiv]

/-! ## Lemmas on `arm_offset_f32` -/

theorem offset_result_zero {α : Type} [Add α] (mem : Buffers α) (pSrc : ElemPtr) (offset : α)
    (pDst : ElemPtr) : offset_result mem pSrc offset pDst 0 = mem := by
  funext q x
  unfold offset_result
  rw [if_neg]
  omega

/-- Processing `m` elements and then the next `n` is processing `m + n` elements. -/
theorem offset_result_add {α : Type} [Add α] (mem : Buffers α) (pSrc : ElemPtr) (offset : α)
    (pDst : ElemPtr) (m n : Nat) (h : DstNotAfterSrc pSrc pDst) :
    offset_result (offset_result mem pSrc offset pDst m) (pSrc.add m) offset (pDst.add m) n =
      offset_result mem pSrc offset pDst (m + n) := by
  funext q x
  simp only [offset_result, ElemPtr.add]
  by_cases h1 : q = pDst.buf ∧ pDst.idx + m ≤ x ∧ x < pDst.idx + m + n
  · have h2 : ¬ (pSrc.buf = pDst.buf ∧ pDst.idx ≤ pSrc.idx + m + (x - (pDst.idx + m)) ∧
        pSrc.idx + m + (x - (pDst.idx + m)) < pDst.idx + m) := by
      rintro ⟨hb, _, hlt⟩
      rcases h with h | h
      · exact h hb
      · omega
    have h2b : q = pDst.buf ∧ pDst.idx ≤ x ∧ x < pDst.idx + (m + n) := ⟨h1.1, by omega, by omega⟩
    rw [if_pos h1, if_neg h2, if_pos h2b]
    have h3 : pSrc.idx + m + (x - (pDst.idx + m)) = pSrc.idx + (x - pDst.idx) := by omega
    rw [h3]
  · rw [if_neg h1]
    by_cases h4 : q = pDst.buf ∧ pDst.idx ≤ x ∧ x < pDst.idx + m
    · have h4b : q = pDst.buf ∧ pDst.idx ≤ x ∧ x < pDst.idx + (m + n) :=
        ⟨h4.1, h4.2.1, by omega⟩
      rw [if_pos h4, if_pos h4b]
    · have h4b : ¬ (q = pDst.buf ∧ pDst.idx ≤ x ∧ x < pDst.idx + (m + n)) := by
        rintro ⟨hb, hl, hu⟩
        by_cases h5 : x < pDst.idx + m
        · exact h4 ⟨hb, hl, h5⟩
        · exact h1 ⟨hb, by omega, by omega⟩
      rw [if_neg h4, if_neg h4b]

theorem load_store_of_idx_lt {α : Type} (mem : Buffers α) (p q : ElemPtr) (v : α)
    (h : p.buf ≠ q.buf ∨ q.idx < p.idx) : load (store mem q v) p = load mem p := by
  unfold load store
  rw [if_neg]
  rintro ⟨hb, hi⟩
  rcases h with h | h
  · exact h hb
  · omega

theorem offset_body1_mem {α : Type} [Add α] (offset : α) (s : OffsetState α) :
    (offset_body1 offset s).mem = offset_result s.mem s.pSrc offset s.pDst 1 := by
  funext q x
  simp only [offset_body1, offset_result, store, load]
  by_cases h : q = s.pDst.buf ∧ x = s.pDst.idx
  · have hb : q = s.pDst.buf ∧ s.pDst.idx ≤ x ∧ x < s.pDst.idx + 1 :=
      ⟨h.1, by omega, by omega⟩
    have h0 : x - s.pDst.idx = 0 := by omega
    rw [if_pos h, if_pos hb, h0]; rfl
  · have hb : ¬ (q = s.pDst.buf ∧ s.pDst.idx ≤ x ∧ x < s.pDst.idx + 1) := by
      rintro ⟨hb, hl, hu⟩
      exact h ⟨hb, by omega⟩
    rw [if_neg h, if_neg hb]


/-- Writing `pSrc[i] + offset`, read from the original buffers, to `pDst[i]` extends the
processed prefix from `i` to `i + 1` elements. -/
theorem store_offset_result {α : Type} [Add α] (mem : Buffers α) (pSrc : ElemPtr) (offset : α)
    (pDst : ElemPtr) (i : Nat) :
    store (offset_result mem pSrc offset pDst i) (pDst.add i) (load mem (pSrc.add i) + offset) =
      offset_result mem pSrc offset pDst (i + 1) := by
  funext q x
  simp only [offset_result, store, load, ElemPtr.add]
  by_cases h : q = pDst.buf ∧ x = pDst.idx + i
  · have hb : q = pDst.buf ∧ pDst.idx ≤ x ∧ x < pDst.idx + (i + 1) :=
      ⟨h.1, by omega, by omega⟩
    have h0 : x - pDst.idx = i := by omega
    rw [if_pos h, if_pos hb, h0]
  · rw [if_neg h]
    by_cases h2 : q = pDst.buf ∧ pDst.idx ≤ x ∧ x < pDst.idx + i
    · have hb : q = pDst.buf ∧ pDst.idx ≤ x ∧ x < pDst.idx + (i + 1) :=
        ⟨h2.1, h2.2.1, by omega⟩
      rw [if_pos h2, if_pos hb]
    · have hb : ¬ (q = pDst.buf ∧ pDst.idx ≤ x ∧ x < pDst.idx + (i + 1)) := by
        rintro ⟨hq, hl, hu⟩
        by_cases h5 : x < pDst.idx + i
        · exact h2 ⟨hq, hl, h5⟩
        · exact h ⟨hq, by omega⟩
      rw [if_neg h2, if_neg hb]

theorem dst_before_later_src {pSrc pDst : ElemPtr} (h : DstNotAfterSrc pSrc pDst)
    (i j : Nat) (hij : i < j) :
    (pSrc.add j).buf ≠ (pDst.add i).buf ∨ (pDst.add i).idx < (pSrc.add j).idx := by
  rcases h with h | h
  · exact Or.inl h
  · right; show pDst.idx + i < pSrc.idx + j; omega

/-- One pass of the unrolled loop writes `pSrc[i] + offset` to `pDst[i]` for `i < 8`, each
source element as it was before the pass. -/
theorem offset_body8_mem {α : Type} [Add α] (offset : α) (s : OffsetState α)
    (h : DstNotAfterSrc s.pSrc s.pDst) :
    (offset_body8 offset s).mem = offset_result s.mem s.pSrc offset s.pDst 8 := by
  have f (i j : Nat) (hij : i < j) := dst_before_later_src h i j hij
  have f0 (j : Nat) (hj : 0 < j) :
      (s.pSrc.add j).buf ≠ s.pDst.buf ∨ s.pDst.idx < (s.pSrc.add j).idx := f 0 j hj
  have e4 : ∀ v0 v1 : α, load (store (store s.mem s.pDst v0) (s.pDst.add 1) v1) (s.pSrc.add 4)
      = load s.mem (s.pSrc.add 4) := by
    intro v0 v1
    rw [load_store_of_idx_lt _ _ _ _ (f 1 4 (by decide)),
      load_store_of_idx_lt _ _ _ _ (f0 4 (by decide))]
  have e5 : ∀ v0 v1 v2 : α,
      load (store (store (store s.mem s.pDst v0) (s.pDst.add 1) v1) (s.pDst.add 2) v2)
        (s.pSrc.add 5) = load s.mem (s.pSrc.add 5) := by
    intro v0 v1 v2
    rw [load_store_of_idx_lt _ _ _ _ (f 2 5 (by decide)),
      load_store_of_idx_lt _ _ _ _ (f 1 5 (by decide)),
      load_store_of_idx_lt _ _ _ _ (f0 5 (by decide))]
  have e6 : ∀ v0 v1 v2 v3 : α,
      load (store (store (store (store s.mem s.pDst v0) (s.pDst.add 1) v1) (s.pDst.add 2) v2)
        (s.pDst.add 3) v3) (s.pSrc.add 6) = load s.mem (s.pSrc.add 6) := by
    intro v0 v1 v2 v3
    rw [load_store_of_idx_lt _ _ _ _ (f 3 6 (by decide)),
      load_store_of_idx_lt _ _ _ _ (f 2 6 (by decide)),
      load_store_of_idx_lt _ _ _ _ (f 1 6 (by decide)),
      load_store_of_idx_lt _ _ _ _ (f0 6 (by decide))]
  have e7 : ∀ v0 v1 v2 v3 : α,
      load (store (store (store (store s.mem s.pDst v0) (s.pDst.add 1) v1) (s.pDst.add 2) v2)
        (s.pDst.add 3) v3) (s.pSrc.add 7) = load s.mem (s.pSrc.add 7) := by
    intro v0 v1 v2 v3
    rw [load_store_of_idx_lt _ _ _ _ (f 3 7 (by decide)),
      load_store_of_idx_lt _ _ _ _ (f 2 7 (by decide)),
      load_store_of_idx_lt _ _ _ _ (f 1 7 (by decide)),
      load_store_of_idx_lt _ _ _ _ (f0 7 (by decide))]
  simp only [offset_body8, e4, e5, e6, e7]
  rw [← store_offset_result s.mem s.pSrc offset s.pDst 7,
    ← store_offset_result s.mem s.pSrc offset s.pDst 6,
    ← store_offset_result s.mem s.pSrc offset s.pDst 5,
    ← store_offset_result s.mem s.pSrc offset s.pDst 4,
    ← store_offset_result s.mem s.pSrc offset s.pDst 3,
    ← store_offset_result s.mem s.pSrc offset s.pDst 2,
    ← store_offset_result s.mem s.pSrc offset s.pDst 1,
    ← store_offset_result s.mem s.pSrc offset s.pDst 0, offset_result_zero]
  rfl


theorem ElemPtr.add_add (p : ElemPtr) (m n : Nat) : (p.add m).add n = p.add (m + n) := by
  simp only [ElemPtr.add, Nat.add_assoc]

theorem DstNotAfterSrc.add {pSrc pDst : ElemPtr} (h : DstNotAfterSrc pSrc pDst) (m : Nat) :
    DstNotAfterSrc (pSrc.add m) (pDst.add m) := by
  rcases h with h | h
  · exact Or.inl h
  · right; show pDst.idx + m ≤ pSrc.idx + m; omega

/-- The unrolled loop of `arm_offset_f32` processes the first `8 * k` elements. -/
theorem offset_loop8 {α : Type} [Add α] (offset : α) (k : Nat) (s : OffsetState α)
    (h : DstNotAfterSrc s.pSrc s.pDst) :
    (loopN (offset_body8 offset) k s).mem = offset_result s.mem s.pSrc offset s.pDst (8 * k) ∧
    (loopN (offset_body8 offset) k s).pSrc = s.pSrc.add (8 * k) ∧
    (loopN (offset_body8 offset) k s).pDst = s.pDst.add (8 * k) := by
  induction k generalizing s with
  | zero => exact ⟨(offset_result_zero _ _ _ _).symm, rfl, rfl⟩
  | succ k ih =>
    have h8 : 8 * (k + 1) = 8 + 8 * k := by ring
    have hs : DstNotAfterSrc (offset_body8 offset s).pSrc (offset_body8 offset s).pDst :=
      h.add 8
    obtain ⟨i1, i2, i3⟩ := ih (offset_body8 offset s) hs
    refine ⟨?_, ?_, ?_⟩
    · show (loopN (offset_body8 offset) k (offset_body8 offset s)).mem = _
      rw [i1, offset_body8_mem offset s h, h8]
      exact offset_result_add s.mem s.pSrc offset s.pDst 8 (8 * k) h
    · show (loopN (offset_body8 offset) k (offset_body8 offset s)).pSrc = _
      rw [i2, h8]; exact ElemPtr.add_add s.pSrc 8 (8 * k)
    · show (loopN (offset_body8 offset) k (offset_body8 offset s)).pDst = _
      rw [i3, h8]; exact ElemPtr.add_add s.pDst 8 (8 * k)

/-- The remainder loop of `arm_offset_f32` processes the next `k` elements. -/
theorem offset_loop1 {α : Type} [Add α] (offset : α) (k : Nat) (s : OffsetState α)
    (h : DstNotAfterSrc s.pSrc s.pDst) :
    (loopN (offset_body1 offset) k s).mem = offset_result s.mem s.pSrc offset s.pDst k ∧
    (loopN (offset_body1 offset) k s).pSrc = s.pSrc.add k ∧
    (loopN (offset_body1 offset) k s).pDst = s.pDst.add k := by
  induction k generalizing s with
  | zero => exact ⟨(offset_result_zero _ _ _ _).symm, rfl, rfl⟩
  | succ k ih =>
    have h1 : k + 1 = 1 + k := Nat.add_comm k 1
    have hs : DstNotAfterSrc (offset_body1 offset s).pSrc (offset_body1 offset s).pDst :=
      h.add 1
    obtain ⟨i1, i2, i3⟩ := ih (offset_body1 offset s) hs
    refine ⟨?_, ?_, ?_⟩
    · show (loopN (offset_body1 offset) k (offset_body1 offset s)).mem = _
      rw [i1, offset_body1_mem offset s, h1]
      exact offset_result_add s.mem s.pSrc offset s.pDst 1 k h
    · show (loopN (offset_body1 offset) k (offset_body1 offset s)).pSrc = _
      rw [i2, h1]; exact ElemPtr.add_add s.pSrc 1 k
    · show (loopN (offset_body1 offset) k (offset_body1 offset s)).pDst = _
      rw [i3, h1]; exact ElemPtr.add_add s.pDst 1 k

/-- What `arm_offset_f32` leaves in the buffers. -/
theorem arm_offset_f32_eq_result {α : Type} [Add α] (mem : Buffers α) (pSrc : ElemPtr)
    (offset : α) (pDst : ElemPtr) (n : Nat) (h : DstNotAfterSrc pSrc pDst) :
    arm_offset_f32 mem pSrc offset pDst n = offset_result mem pSrc offset pDst n := by
  obtain ⟨a1, a2, a3⟩ := offset_loop8 offset (n >>> 3) ⟨mem, pSrc, pDst⟩ h
  have hs : DstNotAfterSrc (loopN (offset_body8 offset) (n >>> 3) ⟨mem, pSrc, pDst⟩).pSrc
      (loopN (offset_body8 offset) (n >>> 3) ⟨mem, pSrc, pDst⟩).pDst := by
    rw [a2, a3]; exact h.add _
  obtain ⟨b1, _, _⟩ := offset_loop1 offset (n % 8) _ hs
  have hn : 8 * (n >>> 3) + n % 8 = n := by
    rw [Nat.shiftRight_eq_div_pow]; omega
  unfold arm_offset_f32 offset_run
  simp only []
  rw [b1, a1, a2, a3]
  have := offset_result_add mem pSrc offset pDst (8 * (n >>> 3)) (n % 8) h
  rw [hn] at this
  exact this

theorem offset_naive_succ {α : Type} [Add α] (mem : Buffers α) (pSrc : ElemPtr) (offset : α)
    (pDst : ElemPtr) (n : Nat) :
    offset_naive mem pSrc offset pDst (n + 1) =
      store (offset_naive mem pSrc offset pDst n) (pDst.add n)
        (load (offset_naive mem pSrc offset pDst n) (pSrc.add n) + offset) := by
  simp [offset_naive, List.range_succ, List.foldl_append]

/-- What the naive elementwise loop leaves in the buffers. -/
theorem offset_naive_eq_result {α : Type} [Add α] (mem : Buffers α) (pSrc : ElemPtr)
    (offset : α) (pDst : ElemPtr) (n : Nat) (h : DstNotAfterSrc pSrc pDst) :
    offset_naive mem pSrc offset pDst n = offset_result mem pSrc offset pDst n := by
  induction n with
  | zero => exact (offset_result_zero _ _ _ _).symm
  | succ n ih =>
    rw [offset_naive_succ, ih, ← store_offset_result]
    simp only [load, offset_result, ElemPtr.add]
    rw [if_neg]
    rintro ⟨hb, _, hlt⟩
    rcases h with h | h
    · exact h hb
    · omega


/-! ## Lemmas on `arm_rms_q31` -/

theorem rms_body8_sum (s : RmsState) :
    (rms_body8 s).sum =
      wrap64 (wrap64 (wrap64 (wrap64 (wrap64 (wrap64 (wrap64 (wrap64 (s.sum
        + sq_term s.pIn1 0) + sq_term s.pIn1 1) + sq_term s.pIn1 2) + sq_term s.pIn1 3)
        + sq_term s.pIn1 4) + sq_term s.pIn1 5) + sq_term s.pIn1 6) + sq_term s.pIn1 7) := rfl

theorem rms_body8_noOverflow (s : RmsState) :
    (rms_body8 s).noOverflow = true ↔
      s.noOverflow = true ∧
      fits64 (s.sum + sq_term s.pIn1 0) = true ∧
      fits64 (wrap64 (s.sum + sq_term s.pIn1 0) + sq_term s.pIn1 1) = true ∧
      fits64 (wrap64 (wrap64 (s.sum + sq_term s.pIn1 0) + sq_term s.pIn1 1)
        + sq_term s.pIn1 2) = true ∧
      fits64 (wrap64 (wrap64 (wrap64 (s.sum + sq_term s.pIn1 0) + sq_term s.pIn1 1)
        + sq_term s.pIn1 2) + sq_term s.pIn1 3) = true ∧
      fits64 (wrap64 (wrap64 (wrap64 (wrap64 (s.sum + sq_term s.pIn1 0) + sq_term s.pIn1 1)
        + sq_term s.pIn1 2) + sq_term s.pIn1 3) + sq_term s.pIn1 4) = true ∧
      fits64 (wrap64 (wrap64 (wrap64 (wrap64 (wrap64 (s.sum + sq_term s.pIn1 0)
        + sq_term s.pIn1 1) + sq_term s.pIn1 2) + sq_term s.pIn1 3) + sq_term s.pIn1 4)
        + sq_term s.pIn1 5) = true ∧
      fits64 (wrap64 (wrap64 (wrap64 (wrap64 (wrap64 (wrap64 (s.sum + sq_term s.pIn1 0)
        + sq_term s.pIn1 1) + sq_term s.pIn1 2) + sq_term s.pIn1 3) + sq_term s.pIn1 4)
        + sq_term s.pIn1 5) + sq_term s.pIn1 6) = true ∧
      fits64 (wrap64 (wrap64 (wrap64 (wrap64 (wrap64 (wrap64 (wrap64 (s.sum
        + sq_term s.pIn1 0) + sq_term s.pIn1 1) + sq_term s.pIn1 2) + sq_term s.pIn1 3)
        + sq_term s.pIn1 4) + sq_term s.pIn1 5) + sq_term s.pIn1 6)
        + sq_term s.pIn1 7) = true := by
  simp only [rms_body8, RmsState.addSquare, Bool.and_eq_true, sq_term, and_assoc]

theorem rms_body8_total (s : RmsState) :
    (rms_body8 s).sum = wrap64 (s.sum + sumTo (sq_term s.pIn1) 8) := by
  rw [rms_body8_sum, sumTo_eight]
  unfold wrap64; omega

/-- The unrolled loop of `arm_rms_q31` adds the first `8 * k` squares, modulo `2 ^ 64`. -/
theorem rms_loop8_mod (k : Nat) (s : RmsState) (hs : wrap64 s.sum = s.sum) :
    (loopN rms_body8 k s).pIn1 = advance s.pIn1 (8 * k) ∧
    (loopN rms_body8 k s).sum = wrap64 (s.sum + sumTo (sq_term s.pIn1) (8 * k)) := by
  induction k generalizing s with
  | zero => simp [loopN, sumTo, advance_zero, hs]
  | succ k ih =>
    have h8 : 8 * (k + 1) = 8 + 8 * k := by ring
    have hb : wrap64 (rms_body8 s).sum = (rms_body8 s).sum := by
      rw [rms_body8_total, wrap64_idem]
    obtain ⟨hA, hS⟩ := ih (rms_body8 s) hb
    refine ⟨?_, ?_⟩
    · show (loopN rms_body8 k (rms_body8 s)).pIn1 = _
      rw [hA, h8]; exact advance_advance s.pIn1 8 (8 * k)
    · show (loopN rms_body8 k (rms_body8 s)).sum = _
      rw [hS, h8, sumTo_add, rms_body8_total, wrap64_add_left, Int.add_assoc]
      rfl

/-- The remainder loop of `arm_rms_q31` adds the next `k` squares, modulo `2 ^ 64`. -/
theorem rms_loop1_mod (k : Nat) (s : RmsState) (hs : wrap64 s.sum = s.sum) :
    (loopN rms_body1 k s).pIn1 = advance s.pIn1 k ∧
    (loopN rms_body1 k s).sum = wrap64 (s.sum + sumTo (sq_term s.pIn1) k) := by
  induction k generalizing s with
  | zero => simp [loopN, sumTo, advance_zero, hs]
  | succ k ih =>
    obtain ⟨hA, hS⟩ := ih (rms_body1 s) (wrap64_idem _)
    refine ⟨?_, ?_⟩
    · show (loopN rms_body1 k (rms_body1 s)).pIn1 = _
      rw [hA, Nat.add_comm k 1]; exact advance_advance s.pIn1 1 k
    · show (loopN rms_body1 k (rms_body1 s)).sum = _
      rw [hS, Nat.add_comm k 1, sumTo_add]
      show wrap64 (wrap64 (s.sum + sq_term s.pIn1 0) + sumTo (sq_term (advance s.pIn1 1)) k) = _
      rw [wrap64_add_left]
      simp only [sumTo, Int.zero_add, Int.add_assoc]
      rfl

/-- The accumulator of `arm_rms_q31` after its loops: the sum of all the squares, reduced
to 64 bits; the pointer has moved past the `n` samples. -/
theorem rms_accumulate_eq_wrap (p : Nat → Int) (n : Nat) :
    (rms_accumulate p n).pIn1 = advance p n ∧
    (rms_accumulate p n).sum = wrap64 (sumTo (sq_term p) n) := by
  have h0 : wrap64 (0 : Int) = 0 := by decide
  obtain ⟨hA, hS⟩ := rms_loop8_mod (n >>> 3) ⟨p, 0, true⟩ h0
  have hw : wrap64 (loopN rms_body8 (n >>> 3) ⟨p, 0, true⟩).sum
      = (loopN rms_body8 (n >>> 3) ⟨p, 0, true⟩).sum := by rw [hS, wrap64_idem]
  obtain ⟨hA1, hS1⟩ := rms_loop1_mod (n % 8) _ hw
  have hn : n = 8 * (n >>> 3) + n % 8 := by
    rw [Nat.shiftRight_eq_div_pow]; omega
  unfold rms_accumulate
  simp only []
  refine ⟨?_, ?_⟩
  · rw [hA1, hA, advance_advance, ← hn]
  · rw [hS1, hS, hA, wrap64_add_left]
    simp only [Int.zero_add]
    conv_rhs => rw [hn, sumTo_add]
    rfl

theorem rms_sum_naive_succ (x : Nat → Int) (n : Nat) :
    rms_sum_naive x (n + 1) = wrap64 (rms_sum_naive x n + x n * x n) := by
  simp [rms_sum_naive, List.range_succ, List.foldl_append]

theorem rms_sum_naive_eq_wrap (x : Nat → Int) (n : Nat) :
    rms_sum_naive x n = wrap64 (sumTo (fun i => x i * x i) n) := by
  induction n with
  | zero => simp [rms_sum_naive, sumTo, wrap64]
  | succ n ih => rw [rms_sum_naive_succ, ih, wrap64_add_left]; rfl

theorem rms_sum_exact_eq_sumTo (x : Nat → Int) (n : Nat) :
    rms_sum_exact x n = sumTo (fun i => x i * x i) n := by
  induction n with
  | zero => rfl
  | succ n ih =>
    unfold rms_sum_exact at ih ⊢
    rw [List.range_succ, List.map_append, List.sum_append, ih]
    simp [sumTo]


/-! ### The ghost flag of `arm_rms_q31` -/

theorem rms_body8_fits (s : RmsState)
    (h : ∀ m, m ≤ 8 → -(2 ^ 63) ≤ s.sum + sumTo (sq_term s.pIn1) m ∧
      s.sum + sumTo (sq_term s.pIn1) m < 2 ^ 63) :
    (rms_body8 s).noOverflow = s.noOverflow ∧
    (rms_body8 s).sum = s.sum + sumTo (sq_term s.pIn1) 8 := by
  have h1 := h 1 (by decide)
  have h2 := h 2 (by decide)
  have h3 := h 3 (by decide)
  have h4 := h 4 (by decide)
  have h5 := h 5 (by decide)
  have h6 := h 6 (by decide)
  have h7 := h 7 (by decide)
  have h8 := h 8 (by decide)
  simp only [sumTo, Int.zero_add] at h1 h2 h3 h4 h5 h6 h7 h8
  refine ⟨?_, ?_⟩
  · rw [Bool.eq_iff_iff, rms_body8_noOverflow]
    simp only [fits64_iff]
    unfold wrap64
    constructor
    · intro hh; exact hh.1
    · intro hh; refine ⟨hh, ?_⟩; omega
  · rw [rms_body8_sum]
    simp only [sumTo, Int.zero_add]
    unfold wrap64; omega

theorem rms_loop8_fits (k : Nat) (s : RmsState)
    (h : ∀ m, m ≤ 8 * k → -(2 ^ 63) ≤ s.sum + sumTo (sq_term s.pIn1) m ∧
      s.sum + sumTo (sq_term s.pIn1) m < 2 ^ 63) :
    (loopN rms_body8 k s).noOverflow = s.noOverflow ∧
    (loopN rms_body8 k s).sum = s.sum + sumTo (sq_term s.pIn1) (8 * k) := by
  induction k generalizing s with
  | zero => exact ⟨rfl, by simp [loopN, sumTo]⟩
  | succ k ih =>
    have h8 : 8 * (k + 1) = 8 + 8 * k := by ring
    obtain ⟨b1, b2⟩ := rms_body8_fits s (fun m hm => h m (by omega))
    have hnext : ∀ m, m ≤ 8 * k →
        -(2 ^ 63) ≤ (rms_body8 s).sum + sumTo (sq_term (rms_body8 s).pIn1) m ∧
        (rms_body8 s).sum + sumTo (sq_term (rms_body8 s).pIn1) m < 2 ^ 63 := by
      intro m hm
      have := h (8 + m) (by omega)
      rw [sumTo_add] at this
      rw [b2, Int.add_assoc]
      exact this
    obtain ⟨r1, r2⟩ := ih (rms_body8 s) hnext
    refine ⟨?_, ?_⟩
    · show (loopN rms_body8 k (rms_body8 s)).noOverflow = _
      rw [r1, b1]
    · show (loopN rms_body8 k (rms_body8 s)).sum = _
      rw [r2, b2, h8, sumTo_add, Int.add_assoc]
      rfl

theorem rms_loop1_fits (k : Nat) (s : RmsState)
    (h : ∀ m, m ≤ k → -(2 ^ 63) ≤ s.sum + sumTo (sq_term s.pIn1) m ∧
      s.sum + sumTo (sq_term s.pIn1) m < 2 ^ 63) :
    (loopN rms_body1 k s).noOverflow = s.noOverflow ∧
    (loopN rms_body1 k s).sum = s.sum + sumTo (sq_term s.pIn1) k := by
  induction k generalizing s with
  | zero => exact ⟨rfl, by simp [loopN, sumTo]⟩
  | succ k ih =>
    have h1 := h 1 (by omega)
    simp only [sumTo, Int.zero_add] at h1
    have hf : fits64 (s.sum + sq_term s.pIn1 0) = true := by
      rw [fits64_iff]; exact h1
    have b2 : (rms_body1 s).sum = s.sum + sumTo (sq_term s.pIn1) 1 := by
      show wrap64 (s.sum + sq_term s.pIn1 0) = _
      rw [wrap64_of_fits h1.1 h1.2]
      simp [sumTo]
    have b1 : (rms_body1 s).noOverflow = s.noOverflow := by
      show (s.noOverflow && fits64 (s.sum + sq_term s.pIn1 0)) = _
      rw [hf, Bool.and_true]
    have hnext : ∀ m, m ≤ k →
        -(2 ^ 63) ≤ (rms_body1 s).sum + sumTo (sq_term (rms_body1 s).pIn1) m ∧
        (rms_body1 s).sum + sumTo (sq_term (rms_body1 s).pIn1) m < 2 ^ 63 := by
      intro m hm
      have := h (1 + m) (by omega)
      rw [sumTo_add] at this
      rw [b2, Int.add_assoc]
      exact this
    obtain ⟨r1, r2⟩ := ih (rms_body1 s) hnext
    refine ⟨?_, ?_⟩
    · show (loopN rms_body1 k (rms_body1 s)).noOverflow = _
      rw [r1, b1]
    · show (loopN rms_body1 k (rms_body1 s)).sum = _
      rw [r2, b2, Nat.add_comm k 1, sumTo_add, Int.add_assoc]
      rfl

/-- When every partial sum of the squares is representable in 64 bits, no addition of
`arm_rms_q31` overflows and its accumulator holds the exact sum. -/
theorem rms_accumulate_fits (p : Nat → Int) (n : Nat)
    (h : ∀ m, m ≤ n → -(2 ^ 63) ≤ sumTo (sq_term p) m ∧ sumTo (sq_term p) m < 2 ^ 63) :
    (rms_accumulate p n).noOverflow = true ∧
    (rms_accumulate p n).sum = sumTo (sq_term p) n := by
  have hn : n = 8 * (n >>> 3) + n % 8 := by
    rw [Nat.shiftRight_eq_div_pow]; omega
  have h0 : wrap64 (0 : Int) = 0 := by decide
  have hz : ∀ X : Int, (⟨p, 0, true⟩ : RmsState).sum + X = X := fun X => Int.zero_add X
  obtain ⟨a1, a2⟩ := rms_loop8_fits (n >>> 3) ⟨p, 0, true⟩ (by
    intro m hm
    rw [hz]; exact h m (by omega))
  rw [hz] at a2
  obtain ⟨hA, _⟩ := rms_loop8_mod (n >>> 3) ⟨p, 0, true⟩ h0
  have hA2 : (loopN rms_body8 (n >>> 3) ⟨p, 0, true⟩).pIn1 = advance p (8 * (n >>> 3)) := hA
  have hadv : ∀ m, sumTo (sq_term (advance p (8 * (n >>> 3)))) m
      = sumTo (advance (sq_term p) (8 * (n >>> 3))) m := fun _ => rfl
  obtain ⟨b1, b2⟩ := rms_loop1_fits (n % 8) (loopN rms_body8 (n >>> 3) ⟨p, 0, true⟩) (by
    intro m hm
    rw [a2, hA2, hadv, ← sumTo_add]
    exact h _ (by omega))
  unfold rms_accumulate
  simp only []
  refine ⟨by rw [b1, a1], ?_⟩
  rw [b2, a2, hA2, hadv, ← sumTo_add, ← hn]

theorem sumTo_nonneg {f : Nat → Int} {n : Nat} (h : ∀ i, i < n → 0 ≤ f i) : 0 ≤ sumTo f n := by
  induction n with
  | zero => exact le_refl _
  | succ n ih =>
    simp only [sumTo]
    have := ih (fun i hi => h i (Nat.lt_succ_of_lt hi))
    have := h n (Nat.lt_succ_self n)
    omega

theorem sumTo_mono {f : Nat → Int} {m n : Nat} (hmn : m ≤ n) (h : ∀ i, i < n → 0 ≤ f i) :
    sumTo f m ≤ sumTo f n := by
  induction n with
  | zero => have : m = 0 := by omega
            subst this; exact le_refl _
  | succ n ih =>
    by_cases hm : m = n + 1
    · subst hm; exact le_refl _
    · have := ih (by omega) (fun i hi => h i (Nat.lt_succ_of_lt hi))
      have := h n (Nat.lt_succ_self n)
      simp only [sumTo]
      omega

theorem sumTo_zero_of_zero {f : Nat → Int} {n : Nat} (h : ∀ i, i < n → f i = 0) :
    sumTo f n = 0 := by
  rw [sumTo_congr (g := fun _ => 0) h, sumTo_const]; simp


/-! ### Saturation and division in `arm_rms_q31` -/

theorem SSAT_range (x : Int) : -(2 ^ 31) ≤ __SSAT x 31 ∧ __SSAT x 31 ≤ 2 ^ 31 - 1 := by
  unfold __SSAT
  split
  · omega
  · split <;> omega

theorem SSAT_of_gt {x : Int} (h : 2 ^ 31 - 1 < x) : __SSAT x 31 = 2 ^ 31 - 1 := by
  unfold __SSAT
  rw [if_neg (by omega), if_pos h]

theorem SSAT_of_fits {x : Int} (h1 : -(2 ^ 31) ≤ x) (h2 : x ≤ 2 ^ 31 - 1) : __SSAT x 31 = x := by
  unfold __SSAT
  rw [if_neg (by omega), if_neg (by omega)]

/-- Both builds convert the accumulator in the same way. -/
theorem rms_saturated_eq (CCS : Bool) (p : Nat → Int) (n : Nat) :
    rms_saturated CCS p n = __SSAT ((rms_accumulate p n).sum >>> (31 : Nat)) 31 := by
  cases CCS <;> rfl

theorem wrap32_of_fits {x : Int} (h1 : -(2 ^ 31) ≤ x) (h2 : x ≤ 2 ^ 31 - 1) : wrap32 x = x := by
  unfold wrap32; omega

theorem tdiv_range {a b : Int} (ha1 : -(2 ^ 31) ≤ a) (ha2 : a ≤ 2 ^ 31 - 1) (hb : 1 ≤ b) :
    -(2 ^ 31) ≤ Int.tdiv a b ∧ Int.tdiv a b ≤ 2 ^ 31 - 1 := by
  by_cases h : 0 ≤ a
  · rw [Int.tdiv_eq_ediv h (by omega)]
    have h1 : a / b ≤ a := Int.ediv_le_self b h
    have h2 : 0 ≤ a / b := Int.ediv_nonneg h (by omega)
    omega
  · have hn : 0 ≤ -a := by omega
    have e : Int.tdiv a b = -(Int.tdiv (-a) b) := by
      rw [Int.neg_tdiv, Int.neg_neg]
    rw [e, Int.tdiv_eq_ediv hn (by omega)]
    have h1 : -a / b ≤ -a := Int.ediv_le_self b hn
    have h2 : 0 ≤ -a / b := Int.ediv_nonneg hn (by omega)
    omega

/-- For a count `1 ≤ n < 2 ^ 31` the argument of the square root is the saturated value
divided by `n`, the quotient truncated towards zero. -/
theorem rms_sqrt_arg_eq (CCS : Bool) (p : Nat → Int) (n : Nat) (h1 : 1 ≤ n) (h2 : n < 2 ^ 31) :
    rms_sqrt_arg CCS p n = some (Int.tdiv (rms_saturated CCS p n) (n : Int)) := by
  have hs := SSAT_range ((rms_accumulate p n).sum >>> (31 : Nat))
  rw [← rms_saturated_eq CCS] at hs
  have hn1 : (1 : Int) ≤ (n : Int) := by exact_mod_cast h1
  have hn2 : (n : Int) ≤ 2 ^ 31 - 1 := by
    have : (n : Int) < 2 ^ 31 := by exact_mod_cast h2
    omega
  have ht := tdiv_range hs.1 hs.2 hn1
  unfold rms_sqrt_arg sdiv32
  rw [wrap32_of_fits hs.1 hs.2, wrap32_of_fits (by omega) hn2,
    if_neg (by omega), if_neg (by omega)]
  simp only [Option.map_some']
  rw [wrap32_of_fits ht.1 ht.2]

/-! ### Scaled inputs of `arm_rms_q31` -/

theorem sq_mul_le {a c : Int} (hc : 1 ≤ c) (h : |a| * c ≤ 2 ^ 31) : a * a * c ≤ 2 ^ 62 := by
  have ha : 0 ≤ |a| := abs_nonneg a
  have hsq : a * a = |a| * |a| := (abs_mul_abs_self a).symm
  have h1 : |a| * c * (|a| * c) ≤ 2 ^ 31 * 2 ^ 31 :=
    mul_le_mul h h (mul_nonneg ha (by omega)) (by norm_num)
  have h2 : |a| * |a| * c ≤ |a| * |a| * c * c := by
    have h3 : 0 ≤ |a| * |a| * c := mul_nonneg (mul_nonneg ha ha) (by omega)
    nlinarith
  rw [hsq]
  have h4 : |a| * c * (|a| * c) = |a| * |a| * c * c := by ring
  have h5 : (2 : Int) ^ 31 * 2 ^ 31 = 2 ^ 62 := by norm_num
  omega

theorem sumTo_sq_mul_le (x : Nat → Int) (c : Int) (n : Nat)
    (h : ∀ i, i < n → x i * x i * c ≤ 2 ^ 62) :
    sumTo (fun i => x i * x i) n * c ≤ (n : Int) * 2 ^ 62 := by
  induction n with
  | zero => simp [sumTo]
  | succ n ih =>
    have h1 := ih (fun i hi => h i (Nat.lt_succ_of_lt hi))
    have h2 := h n (Nat.lt_succ_self n)
    simp only [sumTo]
    push_cast
    rw [Int.add_mul]
    omega

/-- Scaled samples: every partial sum of the squares lies in `[0, 2 ^ 62]`. -/
theorem sumTo_sq_range (x : Nat → Int) (c : Int) (n m : Nat) (hc : 1 ≤ c) (hn : (n : Int) ≤ c)
    (hm : m ≤ n) (h : ∀ i, i < n → |x i| * c ≤ 2 ^ 31) :
    0 ≤ sumTo (fun i => x i * x i) m ∧ sumTo (fun i => x i * x i) m ≤ 2 ^ 62 := by
  refine ⟨sumTo_nonneg (fun i _ => mul_self_nonneg (x i)), ?_⟩
  have h1 := sumTo_sq_mul_le x c m (fun i hi => sq_mul_le hc (h i (by omega)))
  have hm2 : (m : Int) ≤ c := by
    have : (m : Int) ≤ (n : Int) := by exact_mod_cast hm
    omega
  have h2 : (m : Int) * 2 ^ 62 ≤ c * 2 ^ 62 := by nlinarith
  have h3 : sumTo (fun i => x i * x i) m * c ≤ 2 ^ 62 * c := by linarith
  exact le_of_mul_le_mul_right h3 (by omega)

/-! ### Pointers after the loops -/

theorem dot_prod_loop1_ptr (k : Nat) (s : DotProdState) :
    (loopN dot_prod_body1 k s).pSrcA = advance s.pSrcA k ∧
    (loopN dot_prod_body1 k s).pSrcB = advance s.pSrcB k := by
  induction k generalizing s with
  | zero => exact ⟨rfl, rfl⟩
  | succ k ih =>
    obtain ⟨h1, h2⟩ := ih (dot_prod_body1 s)
    refine ⟨?_, ?_⟩
    · show (loopN dot_prod_body1 k (dot_prod_body1 s)).pSrcA = _
      rw [h1, Nat.add_comm k 1]; exact advance_advance s.pSrcA 1 k
    · show (loopN dot_prod_body1 k (dot_prod_body1 s)).pSrcB = _
      rw [h2, Nat.add_comm k 1]; exact advance_advance s.pSrcB 1 k

theorem cmplx_dot_prod_loop4_ptr {α : Type} [Add α] [Mul α] (k : Nat)
    (s : CmplxDotProdState α) :
    (loopN cmplx_dot_prod_body4 k s).pSrcA = advance s.pSrcA (8 * k) ∧
    (loopN cmplx_dot_prod_body4 k s).pSrcB = advance s.pSrcB (8 * k) := by
  induction k generalizing s with
  | zero => exact ⟨rfl, rfl⟩
  | succ k ih =>
    have h8 : 8 * (k + 1) = 8 + 8 * k := by ring
    obtain ⟨h1, h2⟩ := ih (cmplx_dot_prod_body4 s)
    refine ⟨?_, ?_⟩
    · show (loopN cmplx_dot_prod_body4 k (cmplx_dot_prod_body4 s)).pSrcA = _
      rw [h1, h8]; exact advance_advance s.pSrcA 8 (8 * k)
    · show (loopN cmplx_dot_prod_body4 k (cmplx_dot_prod_body4 s)).pSrcB = _
      rw [h2, h8]; exact advance_advance s.pSrcB 8 (8 * k)

theorem cmplx_dot_prod_loop1_ptr {α : Type} [Add α] [Mul α] (k : Nat)
    (s : CmplxDotProdState α) :
    (loopN cmplx_dot_prod_body1 k s).pSrcA = advance s.pSrcA (2 * k) ∧
    (loopN cmplx_dot_prod_body1 k s).pSrcB = advance s.pSrcB (2 * k) := by
  induction k generalizing s with
  | zero => exact ⟨rfl, rfl⟩
  | succ k ih =>
    have h2k : 2 * (k + 1) = 2 + 2 * k := by ring
    obtain ⟨h1, h2⟩ := ih (cmplx_dot_prod_body1 s)
    refine ⟨?_, ?_⟩
    · show (loopN cmplx_dot_prod_body1 k (cmplx_dot_prod_body1 s)).pSrcA = _
      rw [h1, h2k]
      show advance (advance (advance s.pSrcA 1) 1) (2 * k) = _
      rw [advance_advance, advance_advance, ← Nat.add_assoc]
    · show (loopN cmplx_dot_prod_body1 k (cmplx_dot_prod_body1 s)).pSrcB = _
      rw [h2, h2k]
      show advance (advance (advance s.pSrcB 1) 1) (2 * k) = _
      rw [advance_advance, advance_advance, ← Nat.add_assoc]

theorem offset_loop8_ptr {α : Type} [Add α] (offset : α) (k : Nat) (s : OffsetState α) :
    (loopN (offset_body8 offset) k s).pSrc = s.pSrc.add (8 * k) ∧
    (loopN (offset_body8 offset) k s).pDst = s.pDst.add (8 * k) := by
  induction k generalizing s with
  | zero => exact ⟨rfl, rfl⟩
  | succ k ih =>
    have h8 : 8 * (k + 1) = 8 + 8 * k := by ring
    obtain ⟨h1, h2⟩ := ih (offset_body8 offset s)
    refine ⟨?_, ?_⟩
    · show (loopN (offset_body8 offset) k (offset_body8 offset s)).pSrc = _
      rw [h1, h8]; exact ElemPtr.add_add s.pSrc 8 (8 * k)
    · show (loopN (offset_body8 offset) k (offset_body8 offset s)).pDst = _
      rw [h2, h8]; exact ElemPtr.add_add s.pDst 8 (8 * k)

theorem offset_loop1_ptr {α : Type} [Add α] (offset : α) (k : Nat) (s : OffsetState α) :
    (loopN (offset_body1 offset) k s).pSrc = s.pSrc.add k ∧
    (loopN (offset_body1 offset) k s).pDst = s.pDst.add k := by
  induction k generalizing s with
  | zero => exact ⟨rfl, rfl⟩
  | succ k ih =>
    have h1k : k + 1 = 1 + k := Nat.add_comm k 1
    obtain ⟨h1, h2⟩ := ih (offset_body1 offset s)
    refine ⟨?_, ?_⟩
    · show (loopN (offset_body1 offset) k (offset_body1 offset s)).pSrc = _
      rw [h1, h1k]; exact ElemPtr.add_add s.pSrc 1 k
    · show (loopN (offset_body1 offset) k (offset_body1 offset s)).pDst = _
      rw [h2, h1k]; exact ElemPtr.add_add s.pDst 1 k

theorem memset_zero_idem (mem : Memory) (p : Ptr) (nbytes elemSize : Nat) :
    memset_zero (memset_zero mem p nbytes elemSize) p nbytes elemSize =
      memset_zero mem p nbytes elemSize := by
  funext q i
  simp only [memset_zero]
  split <;> rfl


/-! ## Lemmas on `arm_cmplx_dot_prod_f32` -/

theorem loopN_add {σ : Type} (body : σ → σ) (m n : Nat) (s : σ) :
    loopN body (m + n) s = loopN body n (loopN body m s) := by
  induction m generalizing s with
  | zero => rw [Nat.zero_add]; rfl
  | succ m ih => rw [Nat.succ_add]; exact ih (body s)

/-- One pass of the unrolled loop is four passes of the remainder loop. -/
theorem cmplx_dot_prod_body4_eq {α : Type} [Add α] [Mul α] (s : CmplxDotProdState α) :
    cmplx_dot_prod_body4 s = loopN cmplx_dot_prod_body1 4 s := rfl

theorem cmplx_dot_prod_loop4_eq {α : Type} [Add α] [Mul α] (k : Nat)
    (s : CmplxDotProdState α) :
    loopN cmplx_dot_prod_body4 k s = loopN cmplx_dot_prod_body1 (4 * k) s := by
  induction k generalizing s with
  | zero => rfl
  | succ k ih =>
    have h4 : 4 * (k + 1) = 4 + 4 * k := by ring
    show loopN cmplx_dot_prod_body4 k (cmplx_dot_prod_body4 s) = _
    rw [h4, loopN_add cmplx_dot_prod_body1 4 (4 * k), ← cmplx_dot_prod_body4_eq]
    exact ih (cmplx_dot_prod_body4 s)

/-- The two loops of the kernel together are the remainder loop run `n` times. -/
theorem cmplx_dot_prod_run_eq {α : Type} [Zero α] [Add α] [Mul α] (A B : Nat → α) (n : Nat) :
    cmplx_dot_prod_run A B n = loopN cmplx_dot_prod_body1 n ⟨A, B, 0, 0⟩ := by
  have hn : 4 * (n >>> 2) + n % 4 = n := by rw [Nat.shiftRight_eq_div_pow]; omega
  unfold cmplx_dot_prod_run
  simp only []
  rw [cmplx_dot_prod_loop4_eq, ← loopN_add, hn]

/-- The remainder loop run `n` times accumulates the products of the real parts and of
the imaginary parts in increasing index order. -/
theorem cmplx_dot_prod_loop1_sums {α : Type} [Add α] [Mul α] (n : Nat)
    (s : CmplxDotProdState α) :
    ((loopN cmplx_dot_prod_body1 n s).real_sum, (loopN cmplx_dot_prod_body1 n s).imag_sum) =
      (List.range n).foldl
        (fun r k => (r.1 + s.pSrcA (2 * k) * s.pSrcB (2 * k),
                     r.2 + s.pSrcA (2 * k + 1) * s.pSrcB (2 * k + 1)))
        (s.real_sum, s.imag_sum) := by
  induction n generalizing s with
  | zero => rfl
  | succ n ih =>
    show ((loopN cmplx_dot_prod_body1 n (cmplx_dot_prod_body1 s)).real_sum,
      (loopN cmplx_dot_prod_body1 n (cmplx_dot_prod_body1 s)).imag_sum) = _
    rw [ih (cmplx_dot_prod_body1 s), List.range_succ_eq_map, List.foldl_cons, List.foldl_map]
    rfl


/-! ### The argument of the square root in `arm_rms_q31` -/

theorem SSAT_nonneg {x : Int} (h : 0 ≤ x) : 0 ≤ __SSAT x 31 ∧ __SSAT x 31 ≤ 2 ^ 31 - 1 := by
  unfold __SSAT
  split
  · omega
  · split <;> omega

theorem tdiv_nonneg_range {a b : Int} (ha : 0 ≤ a) (hb : 1 ≤ b) :
    0 ≤ Int.tdiv a b ∧ Int.tdiv a b ≤ a := by
  rw [Int.tdiv_eq_ediv ha (by omega)]
  exact ⟨Int.ediv_nonneg ha (by omega), Int.ediv_le_self b ha⟩

theorem concat_advance (a : Nat → Int) (n : Nat) (a2 : Nat → Int) :
    advance (concat a n a2) n = a2 := by
  funext i
  simp only [advance, concat]
  rw [if_neg (by omega), Nat.add_sub_cancel]


/-! ### `arm_offset_f32` with the destination behind the source elements -/

theorem offsetSafe_mono {pSrc pDst : ElemPtr} {N : Nat} (h : OffsetSafe pSrc pDst N)
    {n : Nat} (hn : n ≤ N) : OffsetSafe pSrc pDst n := by
  rcases h with h | h | h
  · exact Or.inl h
  · exact Or.inr (Or.inl h)
  · exact Or.inr (Or.inr (by omega))

theorem offsetSafe_add {pSrc pDst : ElemPtr} {N : Nat} (h : OffsetSafe pSrc pDst N)
    (m : Nat) (hm : m ≤ N) : OffsetSafe (pSrc.add m) (pDst.add m) (N - m) := by
  rcases h with h | h | h
  · exact Or.inl h
  · right; left; show pDst.idx + m ≤ pSrc.idx + m; omega
  · right; right; show pSrc.idx + m + (N - m) ≤ pDst.idx + m; omega

theorem offsetSafe_of_dstNotAfterSrc {pSrc pDst : ElemPtr} (h : DstNotAfterSrc pSrc pDst)
    (n : Nat) : OffsetSafe pSrc pDst n := by
  rcases h with h | h
  · exact Or.inl h
  · exact Or.inr (Or.inl h)

/-- Processing `m` elements and then the next `n` is processing `m + n` elements. -/
theorem offset_result_add_safe {α : Type} [Add α] (mem : Buffers α) (pSrc : ElemPtr)
    (offset : α) (pDst : ElemPtr) (m n : Nat) (h : OffsetSafe pSrc pDst (m + n)) :
    offset_result (offset_result mem pSrc offset pDst m) (pSrc.add m) offset (pDst.add m) n =
      offset_result mem pSrc offset pDst (m + n) := by
  funext q x
  simp only [offset_result, ElemPtr.add]
  by_cases h1 : q = pDst.buf ∧ pDst.idx + m ≤ x ∧ x < pDst.idx + m + n
  · have h2 : ¬ (pSrc.buf = pDst.buf ∧ pDst.idx ≤ pSrc.idx + m + (x - (pDst.idx + m)) ∧
        pSrc.idx + m + (x - (pDst.idx + m)) < pDst.idx + m) := by
      rintro ⟨hb, hge, hlt⟩
      rcases h with h | h | h
      · exact h hb
      · omega
      · omega
    have h2b : q = pDst.buf ∧ pDst.idx ≤ x ∧ x < pDst.idx + (m + n) := ⟨h1.1, by omega, by omega⟩
    rw [if_pos h1, if_neg h2, if_pos h2b]
    have h3 : pSrc.idx + m + (x - (pDst.idx + m)) = pSrc.idx + (x - pDst.idx) := by omega
    rw [h3]
  · rw [if_neg h1]
    by_cases h4 : q = pDst.buf ∧ pDst.idx ≤ x ∧ x < pDst.idx + m
    · have h4b : q = pDst.buf ∧ pDst.idx ≤ x ∧ x < pDst.idx + (m + n) :=
        ⟨h4.1, h4.2.1, by omega⟩
      rw [if_pos h4, if_pos h4b]
    · have h4b : ¬ (q = pDst.buf ∧ pDst.idx ≤ x ∧ x < pDst.idx + (m + n)) := by
        rintro ⟨hb, hl, hu⟩
        by_cases h5 : x < pDst.idx + m
        · exact h4 ⟨hb, hl, h5⟩
        · exact h1 ⟨hb, by omega, by omega⟩
      rw [if_neg h4, if_neg h4b]

theorem load_store_of_ne {α : Type} (mem : Buffers α) (p q : ElemPtr) (v : α)
    (h : p.buf ≠ q.buf ∨ p.idx ≠ q.idx) : load (store mem q v) p = load mem p := by
  unfold load store
  rw [if_neg]
  rintro ⟨hb, hi⟩
  rcases h with h | h
  · exact h hb
  · exact h hi

theorem src_ne_written {pSrc pDst : ElemPtr} (h : OffsetSafe pSrc pDst 8)
    (i j : Nat) (hij : i < j) (hj : j < 8) :
    (pSrc.add j).buf ≠ (pDst.add i).buf ∨ (pSrc.add j).idx ≠ (pDst.add i).idx := by
  rcases h with h | h | h
  · exact Or.inl h
  · right; show pSrc.idx + j ≠ pDst.idx + i; omega
  · right; show pSrc.idx + j ≠ pDst.idx + i; omega

/-- One pass of the unrolled loop writes `pSrc[i] + offset` to `pDst[i]` for `i < 8`, each
source element as it was before the pass. -/
theorem offset_body8_mem_safe {α : Type} [Add α] (offset : α) (s : OffsetState α)
    (h : OffsetSafe s.pSrc s.pDst 8) :
    (offset_body8 offset s).mem = offset_result s.mem s.pSrc offset s.pDst 8 := by
  have f (i j : Nat) (hij : i < j) (hj : j < 8) := src_ne_written h i j hij hj
  have f0 (j : Nat) (hj0 : 0 < j) (hj : j < 8) :
      (s.pSrc.add j).buf ≠ s.pDst.buf ∨ (s.pSrc.add j).idx ≠ s.pDst.idx := f 0 j hj0 hj
  have e4 : ∀ v0 v1 : α, load (store (store s.mem s.pDst v0) (s.pDst.add 1) v1) (s.pSrc.add 4)
      = load s.mem (s.pSrc.add 4) := by
    intro v0 v1
    rw [load_store_of_ne _ _ _ _ (f 1 4 (by decide) (by decide)),
      load_store_of_ne _ _ _ _ (f0 4 (by decide) (by decide))]
  have e5 : ∀ v0 v1 v2 : α,
      load (store (store (store s.mem s.pDst v0) (s.pDst.add 1) v1) (s.pDst.add 2) v2)
        (s.pSrc.add 5) = load s.mem (s.pSrc.add 5) := by
    intro v0 v1 v2
    rw [load_store_of_ne _ _ _ _ (f 2 5 (by decide) (by decide)),
      load_store_of_ne _ _ _ _ (f 1 5 (by decide) (by decide)),
      load_store_of_ne _ _ _ _ (f0 5 (by decide) (by decide))]
  have e6 : ∀ v0 v1 v2 v3 : α,
      load (store (store (store (store s.mem s.pDst v0) (s.pDst.add 1) v1) (s.pDst.add 2) v2)
        (s.pDst.add 3) v3) (s.pSrc.add 6) = load s.mem (s.pSrc.add 6) := by
    intro v0 v1 v2 v3
    rw [load_store_of_ne _ _ _ _ (f 3 6 (by decide) (by decide)),
      load_store_of_ne _ _ _ _ (f 2 6 (by decide) (by decide)),
      load_store_of_ne _ _ _ _ (f 1 6 (by decide) (by decide)),
      load_store_of_ne _ _ _ _ (f0 6 (by decide) (by decide))]
  have e7 : ∀ v0 v1 v2 v3 : α,
      load (store (store (store (store s.mem s.pDst v0) (s.pDst.add 1) v1) (s.pDst.add 2) v2)
        (s.pDst.add 3) v3) (s.pSrc.add 7) = load s.mem (s.pSrc.add 7) := by
    intro v0 v1 v2 v3
    rw [load_store_of_ne _ _ _ _ (f 3 7 (by decide) (by decide)),
      load_store_of_ne _ _ _ _ (f 2 7 (by decide) (by decide)),
      load_store_of_ne _ _ _ _ (f 1 7 (by decide) (by decide)),
      load_store_of_ne _ _ _ _ (f0 7 (by decide) (by decide))]
  simp only [offset_body8, e4, e5, e6, e7]
  rw [← store_offset_result s.mem s.pSrc offset s.pDst 7,
    ← store_offset_result s.mem s.pSrc offset s.pDst 6,
    ← store_offset_result s.mem s.pSrc offset s.pDst 5,
    ← store_offset_result s.mem s.pSrc offset s.pDst 4,
    ← store_offset_result s.mem s.pSrc offset s.pDst 3,
    ← store_offset_result s.mem s.pSrc offset s.pDst 2,
    ← store_offset_result s.mem s.pSrc offset s.pDst 1,
    ← store_offset_result s.mem s.pSrc offset s.pDst 0, offset_result_zero]
  rfl

/-- The unrolled loop of `arm_offset_f32` processes the first `8 * k` of `N` elements. -/
theorem offset_loop8_safe {α : Type} [Add α] (offset : α) (k N : Nat) (s : OffsetState α)
    (h : OffsetSafe s.pSrc s.pDst N) (hN : 8 * k ≤ N) :
    (loopN (offset_body8 offset) k s).mem = offset_result s.mem s.pSrc offset s.pDst (8 * k) := by
  induction k generalizing s N with
  | zero => exact (offset_result_zero _ _ _ _).symm
  | succ k ih =>
    have h8 : 8 * (k + 1) = 8 + 8 * k := by ring
    have hs : OffsetSafe (offset_body8 offset s).pSrc (offset_body8 offset s).pDst (N - 8) :=
      offsetSafe_add h 8 (by omega)
    show (loopN (offset_body8 offset) k (offset_body8 offset s)).mem = _
    rw [ih (N - 8) (offset_body8 offset s) hs (by omega),
      offset_body8_mem_safe offset s (offsetSafe_mono h (by omega)), h8]
    exact offset_result_add_safe s.mem s.pSrc offset s.pDst 8 (8 * k) (offsetSafe_mono h (by omega))

/-- The remainder loop of `arm_offset_f32` processes the next `k` elements. -/
theorem offset_loop1_safe {α : Type} [Add α] (offset : α) (k : Nat) (s : OffsetState α)
    (h : OffsetSafe s.pSrc s.pDst k) :
    (loopN (offset_body1 offset) k s).mem = offset_result s.mem s.pSrc offset s.pDst k := by
  induction k generalizing s with
  | zero => exact (offset_result_zero _ _ _ _).symm
  | succ k ih =>
    have h1 : k + 1 = 1 + k := Nat.add_comm k 1
    have hs : OffsetSafe (offset_body1 offset s).pSrc (offset_body1 offset s).pDst k := by
      have := offsetSafe_add h 1 (by omega)
      rwa [Nat.add_sub_cancel] at this
    show (loopN (offset_body1 offset) k (offset_body1 offset s)).mem = _
    rw [ih (offset_body1 offset s) hs, offset_body1_mem offset s, h1]
    exact offset_result_add_safe s.mem s.pSrc offset s.pDst 1 k (by rw [← h1]; exact h)

/-- What `arm_offset_f32` leaves in the buffers when no source element is overwritten
before it is read. -/
theorem arm_offset_f32_eq_result_safe {α : Type} [Add α] (mem : Buffers α) (pSrc : ElemPtr)
    (offset : α) (pDst : ElemPtr) (n : Nat) (h : OffsetSafe pSrc pDst n) :
    arm_offset_f32 mem pSrc offset pDst n = offset_result mem pSrc offset pDst n := by
  have hn : 8 * (n >>> 3) + n % 8 = n := by
    rw [Nat.shiftRight_eq_div_pow]; omega
  have a1 := offset_loop8_safe offset (n >>> 3) n ⟨mem, pSrc, pDst⟩ h (by omega)
  obtain ⟨a2, a3⟩ := offset_loop8_ptr offset (n >>> 3) ⟨mem, pSrc, pDst⟩
  have hs : OffsetSafe (loopN (offset_body8 offset) (n >>> 3) ⟨mem, pSrc, pDst⟩).pSrc
      (loopN (offset_body8 offset) (n >>> 3) ⟨mem, pSrc, pDst⟩).pDst (n % 8) := by
    rw [a2, a3]
    have := offsetSafe_add h (8 * (n >>> 3)) (by omega)
    have e : n - 8 * (n >>> 3) = n % 8 := by omega
    rwa [e] at this
  have b1 := offset_loop1_safe offset (n % 8) _ hs
  unfold arm_offset_f32 offset_run
  simp only []
  rw [b1, a1, a2, a3]
  have := offset_result_add_safe mem pSrc offset pDst (8 * (n >>> 3)) (n % 8) (by rw [hn]; exact h)
  rw [hn] at this
  exact this

/-- What the naive elementwise loop leaves in the buffers when no source element is
overwritten before it is read. -/
theorem offset_naive_eq_result_safe {α : Type} [Add α] (mem : Buffers α) (pSrc : ElemPtr)
    (offset : α) (pDst : ElemPtr) (n : Nat) (h : OffsetSafe pSrc pDst n) :
    offset_naive mem pSrc offset pDst n = offset_result mem pSrc offset pDst n := by
  induction n with
  | zero => exact (offset_result_zero _ _ _ _).symm
  | succ n ih =>
    rw [offset_naive_succ, ih (offsetSafe_mono h (Nat.le_succ n)), ← store_offset_result]
    simp only [load, offset_result, ElemPtr.add]
    rw [if_neg]
    rintro ⟨hb, hge, hlt⟩
    rcases h with h | h | h
    · exact h hb
    · omega
    · omega


/-! ## The claims -/

/-- C1: for `q31_t` vectors of any common length `n` (zero and lengths that are not
multiples of 8 included) the value `arm_dot_prod_q31` stores is bit-identical to the naive
single-accumulator sequential sum of the terms `(a i * b i) >> 14`, every addition taken
modulo `2 ^ 64`. -/
theorem arm_dot_prod_q31_eq_naive (a b : Nat → Int) (n : Nat)
    (hQ : ∀ i, i < n → isQ31 (a i) ∧ isQ31 (b i)) :
    arm_dot_prod_q31 a b n = dot_prod_naive a b n := by
  rw [arm_dot_prod_q31_eq_wrap, dot_prod_naive_eq_wrap]
  congr 1
  apply sumTo_congr
  intro i hi
  show mul_shift14 (a i) (b i) = _
  unfold mul_shift14
  rw [wrap64_mul_of_isQ31 (hQ i hi).1 (hQ i hi).2]

theorem arm_dot_prod_q31_eq_naive_witness :
    (∀ i, i < 11 → isQ31 (sampleA i) ∧ isQ31 (sampleB i)) ∧
      arm_dot_prod_q31 sampleA sampleB 11 = dot_prod_naive sampleA sampleB 11 :=
  ⟨by decide, arm_dot_prod_q31_eq_naive sampleA sampleB 11 (by decide)⟩

/-- C2: for `q31_t` vectors of common length `n < 2 ^ 15` no addition performed by
`arm_dot_prod_q31` leaves the signed 64-bit range, and the result is the unbounded sum
of the floors `a i * b i / 2 ^ 14`. -/
theorem arm_dot_prod_q31_exact_below_pow15 (a b : Nat → Int) (n : Nat) (hn : n < 2 ^ 15)
    (hQ : ∀ i, i < n → isQ31 (a i) ∧ isQ31 (b i)) :
    (dot_prod_run a b n).noOverflow = true ∧
      arm_dot_prod_q31 a b n = dot_prod_exact a b n := by
  have h := dot_prod_run_noOverflow a b n hn hQ
  refine ⟨h, ?_⟩
  rw [dot_prod_run_sound a b n h, dot_prod_exact_eq_sumTo]
  apply sumTo_congr
  intro i hi
  exact (mul_shift14_of_isQ31 (hQ i hi).1 (hQ i hi).2).1

theorem arm_dot_prod_q31_exact_below_pow15_witness :
    11 < 2 ^ 15 ∧ (∀ i, i < 11 → isQ31 (sampleA i) ∧ isQ31 (sampleB i)) ∧
      (dot_prod_run sampleA sampleB 11).noOverflow = true ∧
      arm_dot_prod_q31 sampleA sampleB 11 = dot_prod_exact sampleA sampleB 11 :=
  ⟨by decide, by decide,
    arm_dot_prod_q31_exact_below_pow15 sampleA sampleB 11 (by decide) (by decide)⟩

/-- C3: at the length `2 ^ 15 = 32768`, which is below `2 ^ 16`, with every sample of both
vectors equal to `-2 ^ 31`, the exact sum of the truncated products is `2 ^ 63`, an
addition of `arm_dot_prod_q31` overflows the 64-bit accumulator, and the stored result is
`-2 ^ 63`. -/
theorem arm_dot_prod_q31_overflows_at_pow15 :
    (∀ i, i < 32768 → isQ31 (allMin i)) ∧
      dot_prod_exact allMin allMin 32768 = 2 ^ 63 ∧
      arm_dot_prod_q31 allMin allMin 32768 = -(2 ^ 63) ∧
      (dot_prod_run allMin allMin 32768).noOverflow = false := by
  have hterm : dot_term allMin allMin = fun _ => 2 ^ 48 := by
    funext i; show mul_shift14 (-2147483648) (-2147483648) = 2 ^ 48; decide
  have hcode : arm_dot_prod_q31 allMin allMin 32768 = -(2 ^ 63) := by
    rw [arm_dot_prod_q31_eq_wrap, hterm, sumTo_const]; decide
  have hmin : isQ31 (-2147483648) := by decide
  refine ⟨fun _ _ => hmin, ?_, hcode, ?_⟩
  · rw [dot_prod_exact_eq_sumTo]
    show sumTo (fun _ => (-2147483648 : Int) * (-2147483648) / 2 ^ 14) 32768 = 2 ^ 63
    rw [sumTo_const]; decide
  · cases h : (dot_prod_run allMin allMin 32768).noOverflow with
    | false => rfl
    | true =>
      have h2 := dot_prod_run_sound allMin allMin 32768 h
      rw [hcode, hterm, sumTo_const] at h2
      exact absurd h2 (by decide)

/-- C4: on the two-sample complex vectors `A = (1 + 2i, 3 + 4i)` and
`B = (5 + 6i, 7 + 8i)`, all of whose values and intermediate results are small integers,
`arm_cmplx_dot_prod_f32` stores `(26, 44)`, the sums of the products of the real parts
and of the imaginary parts, while the documented formula gives `(-18, 68)`. -/
theorem arm_cmplx_dot_prod_f32_differs_from_documented :
    arm_cmplx_dot_prod_f32 cmplxA cmplxB 2 = (26, 44) ∧
      cmplx_dot_prod_documented cmplxA cmplxB 2 = (-18, 68) := by
  constructor <;> rfl

/-- C5: for a decimation factor `M ≥ 1`, `arm_fir_decimate_init_q31` returns, and its
status is `ARM_MATH_LENGTH_ERROR` exactly when `blockSize % M ≠ 0` and `ARM_MATH_SUCCESS`
exactly when `blockSize % M = 0`. -/
theorem arm_fir_decimate_init_q31_status (mem : Memory) (S : arm_fir_decimate_instance_q31)
    (numTaps M : Nat) (pCoeffs pState : Ptr) (blockSize : Nat) (hM : 1 ≤ M) :
    ∃ r, arm_fir_decimate_init_q31 mem S numTaps M pCoeffs pState blockSize = some r ∧
      (r.status = arm_status.ARM_MATH_LENGTH_ERROR ↔ blockSize % M ≠ 0) ∧
      (r.status = arm_status.ARM_MATH_SUCCESS ↔ blockSize % M = 0) := by
  by_cases hdiv : blockSize % M = 0
  · exact ⟨_, arm_fir_decimate_init_q31_success mem S numTaps M pCoeffs pState blockSize hM hdiv,
      by simp [hdiv], by simp [hdiv]⟩
  · exact ⟨_, arm_fir_decimate_init_q31_failure mem S numTaps M pCoeffs pState blockSize hM hdiv,
      by simp [hdiv], by simp [hdiv]⟩

theorem arm_fir_decimate_init_q31_status_witness :
    1 ≤ 3 ∧ ∃ r, arm_fir_decimate_init_q31 sampleMem staleFir 5 3 1 2 8 = some r ∧
      (r.status = arm_status.ARM_MATH_LENGTH_ERROR ↔ 8 % 3 ≠ 0) ∧
      (r.status = arm_status.ARM_MATH_SUCCESS ↔ 8 % 3 = 0) :=
  ⟨by decide, arm_fir_decimate_init_q31_status sampleMem staleFir 5 3 1 2 8 (by decide)⟩

/-- C6: whenever `arm_fir_decimate_init_q31` returns `ARM_MATH_LENGTH_ERROR`, every buffer
of the caller (state and coefficient buffer among them) and every field of the instance
are exactly what they were before the call. -/
theorem arm_fir_decimate_init_q31_error_no_effect (mem : Memory)
    (S : arm_fir_decimate_instance_q31) (numTaps M : Nat) (pCoeffs pState : Ptr)
    (blockSize : Nat) (r : FirDecimateInit)
    (hr : arm_fir_decimate_init_q31 mem S numTaps M pCoeffs pState blockSize = some r)
    (he : r.status = arm_status.ARM_MATH_LENGTH_ERROR) :
    r.mem = mem ∧ r.S = S := by
  unfold arm_fir_decimate_init_q31 at hr
  split at hr
  · exact absurd hr (by simp)
  · split at hr
    · simp only [Option.some.injEq] at hr
      subst hr
      exact ⟨rfl, rfl⟩
    · simp only [Option.some.injEq] at hr
      subst hr
      exact absurd he (by simp)

theorem arm_fir_decimate_init_q31_error_no_effect_witness :
    arm_fir_decimate_init_q31 sampleMem staleFir 5 3 1 2 8 =
        some ⟨arm_status.ARM_MATH_LENGTH_ERROR, sampleMem, staleFir⟩ ∧
      (⟨arm_status.ARM_MATH_LENGTH_ERROR, sampleMem, staleFir⟩ : FirDecimateInit).mem
        = sampleMem ∧
      (⟨arm_status.ARM_MATH_LENGTH_ERROR, sampleMem, staleFir⟩ : FirDecimateInit).S
        = staleFir :=
  ⟨rfl, arm_fir_decimate_init_q31_error_no_effect sampleMem staleFir 5 3 1 2 8
    ⟨arm_status.ARM_MATH_LENGTH_ERROR, sampleMem, staleFir⟩ rfl rfl⟩

/-- C7, as stated, fails for `numTaps = 0`, `M = 1`, `blockSize = 0`: the configuration is
accepted, `numTaps + blockSize - 1` is `-1`, so no element should change, yet element 0 of
the state buffer, `201` before the call, is zero after it (the count `0 + (0u - 1)` wraps
to `2 ^ 32 - 1`). -/
theorem arm_fir_decimate_init_q31_zero_fill_counterexample :
    ∃ r, arm_fir_decimate_init_q31 sampleMem staleFir 0 1 1 2 0 = some r ∧
      r.status = arm_status.ARM_MATH_SUCCESS ∧
      sampleMem 2 0 = 201 ∧ r.mem 2 0 = 0 ∧
      ¬ ZeroFilledExactly sampleMem r.mem 2 ((0 : Int) + 0 - 1) := by
  refine ⟨_, arm_fir_decimate_init_q31_success sampleMem staleFir 0 1 1 2 0 (by decide)
    (by decide), rfl, by decide, by decide, ?_⟩
  intro h
  have h0 := (h 0).2 (by decide)
  exact absurd h0 (by decide)

/-- C7, amended: for an accepted configuration (`M ≥ 1`, `blockSize % M = 0`) with
`numTaps + blockSize ≥ 1` and `numTaps + blockSize - 1 < 2 ^ 30`,
`arm_fir_decimate_init_q31` succeeds, sets exactly the first `numTaps + blockSize - 1`
elements of the state buffer to zero and leaves every later element of it unchanged. -/
theorem arm_fir_decimate_init_q31_zero_fill (mem : Memory) (S : arm_fir_decimate_instance_q31)
    (numTaps M : Nat) (pCoeffs pState : Ptr) (blockSize : Nat)
    (hM : 1 ≤ M) (hdiv : blockSize % M = 0)
    (h1 : 1 ≤ numTaps + blockSize) (h2 : numTaps + blockSize - 1 < 2 ^ 30) :
    ∃ r, arm_fir_decimate_init_q31 mem S numTaps M pCoeffs pState blockSize = some r ∧
      r.status = arm_status.ARM_MATH_SUCCESS ∧
      ZeroFilledExactly mem r.mem pState ((numTaps : Int) + (blockSize : Int) - 1) := by
  refine ⟨_, arm_fir_decimate_init_q31_success mem S numTaps M pCoeffs pState blockSize hM hdiv,
    rfl, ?_⟩
  show ZeroFilledExactly mem
    (memset_zero mem pState (mul_sizeof (add32 numTaps (sub32 blockSize 1)) 4) 4) pState _
  rw [taps_block_bytes numTaps blockSize h1 h2]
  have hc : (numTaps : Int) + (blockSize : Int) - 1 = ((numTaps + blockSize - 1 : Nat) : Int) := by
    omega
  rw [hc]
  exact memset_zero_filled mem pState _ 4 (by decide)

theorem arm_fir_decimate_init_q31_zero_fill_witness :
    1 ≤ 2 ∧ 4 % 2 = 0 ∧ 1 ≤ 3 + 4 ∧ 3 + 4 - 1 < 2 ^ 30 ∧
      ∃ r, arm_fir_decimate_init_q31 sampleMem staleFir 3 2 1 2 4 = some r ∧
        r.status = arm_status.ARM_MATH_SUCCESS ∧
        ZeroFilledExactly sampleMem r.mem 2 (((3 : Nat) : Int) + ((4 : Nat) : Int) - 1) :=
  ⟨by decide, by decide, by decide, by decide,
    arm_fir_decimate_init_q31_zero_fill sampleMem staleFir 3 2 1 2 4 (by decide) (by decide)
      (by decide) (by decide)⟩

/-- C8, as stated, fails for `numStages = 1`, `blockSize = 2 ^ 32 - 1`: the count
`numStages + blockSize` is `2 ^ 32`, so element 0 of the state buffer should become zero,
yet it keeps its value `501` (the count wraps to `0` in `uint32_t`). -/
theorem arm_iir_lattice_init_q15_zero_fill_counterexample :
    (arm_iir_lattice_init_q15 sampleMem staleLattice 1 3 4 5 4294967295).1 5 0 = 501 ∧
      ¬ ZeroFilledExactly sampleMem
        (arm_iir_lattice_init_q15 sampleMem staleLattice 1 3 4 5 4294967295).1 5
        ((1 : Int) + 4294967295) := by
  have hv : (arm_iir_lattice_init_q15 sampleMem staleLattice 1 3 4 5 4294967295).1 5 0 = 501 := by
    decide
  refine ⟨hv, ?_⟩
  intro h
  have h0 := (h 0).1 (by decide)
  rw [hv] at h0
  exact absurd h0 (by decide)

/-- C8, amended: for `numStages + blockSize < 2 ^ 31`, `arm_iir_lattice_init_q15` (which
has no failure branch) sets exactly the first `numStages + blockSize` elements of the state
buffer to zero, leaves every later element of it unchanged, and leaves the instance with
`numStages` equal to the argument and `pkCoeffs`, `pvCoeffs`, `pState` equal to the
pointers to the caller's reflection-coefficient, ladder-coefficient and state buffers. -/
theorem arm_iir_lattice_init_q15_spec (mem : Memory) (S : arm_iir_lattice_instance_q15)
    (numStages : Nat) (pkCoeffs pvCoeffs pState : Ptr) (blockSize : Nat)
    (h : numStages + blockSize < 2 ^ 31) :
    ZeroFilledExactly mem
        (arm_iir_lattice_init_q15 mem S numStages pkCoeffs pvCoeffs pState blockSize).1 pState
        ((numStages : Int) + (blockSize : Int)) ∧
      (arm_iir_lattice_init_q15 mem S numStages pkCoeffs pvCoeffs pState blockSize).2 =
        { numStages := numStages, pState := pState, pkCoeffs := pkCoeffs,
          pvCoeffs := pvCoeffs } := by
  refine ⟨?_, rfl⟩
  show ZeroFilledExactly mem
    (memset_zero mem pState (mul_sizeof (add32 numStages blockSize) 2) 2) pState _
  rw [stages_block_bytes numStages blockSize h]
  have hc : (numStages : Int) + (blockSize : Int) = ((numStages + blockSize : Nat) : Int) := by
    omega
  rw [hc]
  exact memset_zero_filled mem pState _ 2 (by decide)

theorem arm_iir_lattice_init_q15_spec_witness :
    3 + 4 < 2 ^ 31 ∧
      ZeroFilledExactly sampleMem
        (arm_iir_lattice_init_q15 sampleMem staleLattice 3 1 2 5 4).1 5
        (((3 : Nat) : Int) + ((4 : Nat) : Int)) ∧
      (arm_iir_lattice_init_q15 sampleMem staleLattice 3 1 2 5 4).2 =
        { numStages := 3, pState := 5, pkCoeffs := 1, pvCoeffs := 2 } :=
  ⟨by decide, arm_iir_lattice_init_q15_spec sampleMem staleLattice 3 1 2 5 4 (by decide)⟩

/-- C9, as stated, fails for `numTaps = 0`, `blockSize = 0`: `numTaps + blockSize - 1` is
`-1`, so no element should change, yet element 0 of the state buffer, `201` before the
call, is zero after it (the count `0 + (0u - 1u)` wraps to `2 ^ 32 - 1`). -/
theorem arm_lms_init_q31_zero_fill_counterexample :
    sampleMem 2 0 = 201 ∧ (arm_lms_init_q31 sampleMem staleLms 0 1 2 7 0 3).1 2 0 = 0 ∧
      ¬ ZeroFilledExactly sampleMem (arm_lms_init_q31 sampleMem staleLms 0 1 2 7 0 3).1 2
        ((0 : Int) + 0 - 1) := by
  have hv : (arm_lms_init_q31 sampleMem staleLms 0 1 2 7 0 3).1 2 0 = 0 := by decide
  refine ⟨by decide, hv, ?_⟩
  intro h
  have h0 := (h 0).2 (by decide)
  rw [hv] at h0
  exact absurd h0 (by decide)

/-- C9, amended: for `numTaps + blockSize ≥ 1` and `numTaps + blockSize - 1 < 2 ^ 30`,
`arm_lms_init_q31` (which has no failure branch) sets exactly the first
`numTaps + blockSize - 1` elements of the state buffer to zero, leaves every later element
of it unchanged, and leaves the instance with `numTaps`, `mu`, `postShift` equal to the
arguments and `pCoeffs`, `pState` equal to the pointers to the caller's coefficient and
state buffers. -/
theorem arm_lms_init_q31_spec (mem : Memory) (S : arm_lms_instance_q31)
    (numTaps : Nat) (pCoeffs pState : Ptr) (mu : Int) (blockSize postShift : Nat)
    (h1 : 1 ≤ numTaps + blockSize) (h2 : numTaps + blockSize - 1 < 2 ^ 30) :
    ZeroFilledExactly mem
        (arm_lms_init_q31 mem S numTaps pCoeffs pState mu blockSize postShift).1 pState
        ((numTaps : Int) + (blockSize : Int) - 1) ∧
      (arm_lms_init_q31 mem S numTaps pCoeffs pState mu blockSize postShift).2 =
        { numTaps := numTaps, pState := pState, pCoeffs := pCoeffs, mu := mu,
          postShift := postShift } := by
  refine ⟨?_, rfl⟩
  show ZeroFilledExactly mem
    (memset_zero mem pState (mul_sizeof (add32 numTaps (sub32 blockSize 1)) 4) 4) pState _
  rw [taps_block_bytes numTaps blockSize h1 h2]
  have hc : (numTaps : Int) + (blockSize : Int) - 1 = ((numTaps + blockSize - 1 : Nat) : Int) := by
    omega
  rw [hc]
  exact memset_zero_filled mem pState _ 4 (by decide)

theorem arm_lms_init_q31_spec_witness :
    1 ≤ 3 + 4 ∧ 3 + 4 - 1 < 2 ^ 30 ∧
      ZeroFilledExactly sampleMem (arm_lms_init_q31 sampleMem staleLms 3 1 2 7 4 5).1 2
        (((3 : Nat) : Int) + ((4 : Nat) : Int) - 1) ∧
      (arm_lms_init_q31 sampleMem staleLms 3 1 2 7 4 5).2 =
        { numTaps := 3, pState := 2, pCoeffs := 1, mu := 7, postShift := 5 } :=
  ⟨by decide, by decide,
    arm_lms_init_q31_spec sampleMem staleLms 3 1 2 7 4 5 (by decide) (by decide)⟩

/-- C10, as stated, fails when the caller passes the same buffer as coefficient buffer and
as state buffer (`pCoeffs = pState = 2`, `numTaps = 3`, `M = 2`, `blockSize = 4`): the call
succeeds and binds `S.pCoeffs`, yet element 0 of the coefficient buffer, `201` before the
call, is zero after it, cleared by the `memset` of the state buffer. -/
theorem arm_fir_decimate_init_q31_binds_counterexample :
    ∃ r, arm_fir_decimate_init_q31 sampleMem staleFir 3 2 2 2 4 = some r ∧
      r.status = arm_status.ARM_MATH_SUCCESS ∧ r.S.pCoeffs = 2 ∧ r.S.pState = 2 ∧
      sampleMem 2 0 = 201 ∧ r.mem r.S.pCoeffs 0 = 0 ∧
      ¬ ∀ i, r.mem r.S.pCoeffs i = sampleMem r.S.pCoeffs i := by
  refine ⟨_, arm_fir_decimate_init_q31_success sampleMem staleFir 3 2 2 2 4 (by decide)
    (by decide), rfl, rfl, rfl, by decide, by decide, ?_⟩
  intro h
  exact absurd (h 0) (by decide)

/-- C10, amended: on success (`M ≥ 1`, `blockSize % M = 0`), with the coefficient buffer
and the state buffer two distinct buffers and with `numTaps + blockSize ≥ 1` and
`numTaps + blockSize - 1 < 2 ^ 30` (so that the `memset` stays within the
`numTaps + blockSize - 1` elements of the state buffer), `arm_fir_decimate_init_q31`
leaves the instance with `numTaps` and `M` equal to the arguments, `pCoeffs` and `pState`
equal to the pointers to the caller's coefficient and state buffers, and every element of
the coefficient buffer unchanged: the only elements that differ after the call are among
the first `numTaps + blockSize - 1` of the state buffer. -/
theorem arm_fir_decimate_init_q31_binds (mem : Memory) (S : arm_fir_decimate_instance_q31)
    (numTaps M : Nat) (pCoeffs pState : Ptr) (blockSize : Nat)
    (hM : 1 ≤ M) (hdiv : blockSize % M = 0) (hne : pCoeffs ≠ pState)
    (h1 : 1 ≤ numTaps + blockSize) (h2 : numTaps + blockSize - 1 < 2 ^ 30) :
    ∃ r, arm_fir_decimate_init_q31 mem S numTaps M pCoeffs pState blockSize = some r ∧
      r.status = arm_status.ARM_MATH_SUCCESS ∧
      r.S.numTaps = numTaps ∧ r.S.M = M ∧ r.S.pCoeffs = pCoeffs ∧ r.S.pState = pState ∧
      (∀ i, r.mem pCoeffs i = mem pCoeffs i) ∧
      (∀ q i, r.mem q i ≠ mem q i → q = pState ∧ i < numTaps + blockSize - 1) := by
  refine ⟨_, arm_fir_decimate_init_q31_success mem S numTaps M pCoeffs pState blockSize hM hdiv,
    rfl, rfl, rfl, rfl, rfl, ?_, ?_⟩
  · intro i
    show memset_zero mem pState _ 4 pCoeffs i = mem pCoeffs i
    rw [memset_zero_other mem pState pCoeffs _ 4 hne]
  · intro q i hq
    have hq2 : memset_zero mem pState (mul_sizeof (add32 numTaps (sub32 blockSize 1)) 4) 4 q i
        ≠ mem q i := hq
    rw [taps_block_bytes numTaps blockSize h1 h2] at hq2
    by_cases hc : q = pState ∧ (i + 1) * 4 ≤ 4 * (numTaps + blockSize - 1)
    · exact ⟨hc.1, by omega⟩
    · exact absurd (by simp only [memset_zero, if_neg hc]) hq2

theorem arm_fir_decimate_init_q31_binds_witness :
    1 ≤ 2 ∧ 4 % 2 = 0 ∧ (1 : Ptr) ≠ 2 ∧ 1 ≤ 3 + 4 ∧ 3 + 4 - 1 < 2 ^ 30 ∧
      ∃ r, arm_fir_decimate_init_q31 sampleMem staleFir 3 2 1 2 4 = some r ∧
        r.status = arm_status.ARM_MATH_SUCCESS ∧
        r.S.numTaps = 3 ∧ r.S.M = 2 ∧ r.S.pCoeffs = 1 ∧ r.S.pState = 2 ∧
        (∀ i, r.mem 1 i = sampleMem 1 i) ∧
        (∀ q i, r.mem q i ≠ sampleMem q i → q = 2 ∧ i < 3 + 4 - 1) :=
  ⟨by decide, by decide, by decide, by decide, by decide,
    arm_fir_decimate_init_q31_binds sampleMem staleFir 3 2 1 2 4 (by decide) (by decide)
      (by decide) (by decide) (by decide)⟩

/-- C11, as stated, fails for the lattice initialiser with `numStages = 1`,
`blockSize = 2 ^ 32 - 1`: the history region has `numStages + blockSize = 2 ^ 32` elements,
yet after the call element 0 of the state buffer still holds `501` (the count wraps to `0`
in `uint32_t`, so nothing is cleared). -/
theorem init_reset_history_counterexample :
    (arm_iir_lattice_init_q15 sampleMem staleLattice 1 3 4 5 4294967295).1 5 0 = 501 ∧
      ¬ HistoryZero (arm_iir_lattice_init_q15 sampleMem staleLattice 1 3 4 5 4294967295).1 5
        ((1 : Int) + 4294967295) := by
  have hv : (arm_iir_lattice_init_q15 sampleMem staleLattice 1 3 4 5 4294967295).1 5 0 = 501 := by
    decide
  refine ⟨hv, ?_⟩
  intro h
  have h0 := h 0 (by decide)
  rw [hv] at h0
  exact absurd h0 (by decide)

/-- C11, amended: when the element count does not wrap (`numTaps + blockSize ≤ 2 ^ 30` for
the FIR decimator, with an accepted configuration, and for the LMS filter,
`numStages + blockSize < 2 ^ 31` for the lattice), each initialiser, run on buffers of
arbitrary content `mem`, leaves the whole history region of the state buffer zero
(`numTaps + blockSize - 1` elements, `numStages + blockSize` for the lattice), and running
it once more with the same arguments on what it left changes neither the buffers nor the
instance. -/
theorem init_reset_history (mem : Memory)
    (Sf : arm_fir_decimate_instance_q31) (numTaps M : Nat) (pCoeffs pState : Ptr)
    (blockSize : Nat)
    (Sl : arm_iir_lattice_instance_q15) (numStages : Nat) (pkCoeffs pvCoeffs pStateL : Ptr)
    (blockSizeL : Nat)
    (Sm : arm_lms_instance_q31) (numTapsM : Nat) (pCoeffsM pStateM : Ptr) (mu : Int)
    (blockSizeM postShift : Nat)
    (hM : 1 ≤ M) (hdiv : blockSize % M = 0) (hF : numTaps + blockSize ≤ 2 ^ 30)
    (hL : numStages + blockSizeL < 2 ^ 31) (hLms : numTapsM + blockSizeM ≤ 2 ^ 30) :
    (∃ r, arm_fir_decimate_init_q31 mem Sf numTaps M pCoeffs pState blockSize = some r ∧
      HistoryZero r.mem pState ((numTaps : Int) + (blockSize : Int) - 1) ∧
      arm_fir_decimate_init_q31 r.mem r.S numTaps M pCoeffs pState blockSize = some r) ∧
    (HistoryZero
        (arm_iir_lattice_init_q15 mem Sl numStages pkCoeffs pvCoeffs pStateL blockSizeL).1
        pStateL ((numStages : Int) + (blockSizeL : Int)) ∧
      arm_iir_lattice_init_q15
          (arm_iir_lattice_init_q15 mem Sl numStages pkCoeffs pvCoeffs pStateL blockSizeL).1
          (arm_iir_lattice_init_q15 mem Sl numStages pkCoeffs pvCoeffs pStateL blockSizeL).2
          numStages pkCoeffs pvCoeffs pStateL blockSizeL =
        arm_iir_lattice_init_q15 mem Sl numStages pkCoeffs pvCoeffs pStateL blockSizeL) ∧
    (HistoryZero
        (arm_lms_init_q31 mem Sm numTapsM pCoeffsM pStateM mu blockSizeM postShift).1
        pStateM ((numTapsM : Int) + (blockSizeM : Int) - 1) ∧
      arm_lms_init_q31
          (arm_lms_init_q31 mem Sm numTapsM pCoeffsM pStateM mu blockSizeM postShift).1
          (arm_lms_init_q31 mem Sm numTapsM pCoeffsM pStateM mu blockSizeM postShift).2
          numTapsM pCoeffsM pStateM mu blockSizeM postShift =
        arm_lms_init_q31 mem Sm numTapsM pCoeffsM pStateM mu blockSizeM postShift) := by
  have tapsZero : ∀ (m : Memory) (p : Ptr) (nT bS : Nat), nT + bS ≤ 2 ^ 30 →
      HistoryZero (memset_zero m p (mul_sizeof (add32 nT (sub32 bS 1)) 4) 4) p
        ((nT : Int) + (bS : Int) - 1) := by
    intro m p nT bS hle i hi
    have h1 : 1 ≤ nT + bS := by omega
    rw [taps_block_bytes nT bS h1 (by omega)]
    exact ((memset_zero_filled m p (nT + bS - 1) 4 (by decide)) i).1 (by omega)
  refine ⟨?_, ⟨?_, ?_⟩, ⟨?_, ?_⟩⟩
  · refine ⟨_, arm_fir_decimate_init_q31_success mem Sf numTaps M pCoeffs pState blockSize
      hM hdiv, tapsZero mem pState numTaps blockSize hF, ?_⟩
    rw [arm_fir_decimate_init_q31_success _ _ numTaps M pCoeffs pState blockSize hM hdiv]
    simp only [memset_zero_idem]
  · intro i hi
    show memset_zero mem pStateL (mul_sizeof (add32 numStages blockSizeL) 2) 2 pStateL i = 0
    rw [stages_block_bytes numStages blockSizeL hL]
    exact ((memset_zero_filled mem pStateL (numStages + blockSizeL) 2 (by decide)) i).1
      (by omega)
  · show ((memset_zero (memset_zero mem pStateL _ 2) pStateL _ 2,
      (⟨numStages, pStateL, pkCoeffs, pvCoeffs⟩ : arm_iir_lattice_instance_q15)) :
        Memory × arm_iir_lattice_instance_q15) = (memset_zero mem pStateL _ 2, _)
    rw [memset_zero_idem]
  · exact tapsZero mem pStateM numTapsM blockSizeM hLms
  · show ((memset_zero (memset_zero mem pStateM _ 4) pStateM _ 4,
      (⟨numTapsM, pStateM, pCoeffsM, mu, postShift⟩ : arm_lms_instance_q31)) :
        Memory × arm_lms_instance_q31) = (memset_zero mem pStateM _ 4, _)
    rw [memset_zero_idem]

theorem init_reset_history_witness :
    (1 ≤ 2 ∧ 4 % 2 = 0 ∧ 3 + 4 ≤ 2 ^ 30 ∧ 3 + 4 < 2 ^ 31 ∧ 3 + 4 ≤ 2 ^ 30) ∧
    (∃ r, arm_fir_decimate_init_q31 sampleMem staleFir 3 2 1 2 4 = some r ∧
      HistoryZero r.mem 2 (((3 : Nat) : Int) + ((4 : Nat) : Int) - 1) ∧
      arm_fir_decimate_init_q31 r.mem r.S 3 2 1 2 4 = some r) ∧
    (HistoryZero (arm_iir_lattice_init_q15 sampleMem staleLattice 3 1 2 5 4).1 5
        (((3 : Nat) : Int) + ((4 : Nat) : Int)) ∧
      arm_iir_lattice_init_q15 (arm_iir_lattice_init_q15 sampleMem staleLattice 3 1 2 5 4).1
          (arm_iir_lattice_init_q15 sampleMem staleLattice 3 1 2 5 4).2 3 1 2 5 4 =
        arm_iir_lattice_init_q15 sampleMem staleLattice 3 1 2 5 4) ∧
    (HistoryZero (arm_lms_init_q31 sampleMem staleLms 3 1 2 7 4 5).1 2
        (((3 : Nat) : Int) + ((4 : Nat) : Int) - 1) ∧
      arm_lms_init_q31 (arm_lms_init_q31 sampleMem staleLms 3 1 2 7 4 5).1
          (arm_lms_init_q31 sampleMem staleLms 3 1 2 7 4 5).2 3 1 2 7 4 5 =
        arm_lms_init_q31 sampleMem staleLms 3 1 2 7 4 5) :=
  ⟨⟨by decide, by decide, by decide, by decide, by decide⟩,
    init_reset_history sampleMem staleFir 3 2 1 2 4 staleLattice 3 1 2 5 4 staleLms 3 1 2 7 4 5
      (by decide) (by decide) (by decide) (by decide) (by decide)⟩

/-- C12, as stated, fails when the destination starts one element after the source in the
same buffer (`pDst = pSrc + 1`) and `n = 9`: the unrolled pass writes `pDst[7]`, which is
`pSrc[8]`, before the remainder loop reads it, so `pDst[8]` ends as `2108` where
`pSrc[8] + offset` is `109 + 1000 = 1109`; and the naive loop leaves other buffers
(`pDst[1]` is `2101` there, `1102` here). -/
theorem arm_offset_f32_elementwise_counterexample :
    sampleMem 1 (0 + 8) + 1000 = 1109 ∧
    arm_offset_f32 sampleMem ⟨1, 0⟩ 1000 ⟨1, 1⟩ 9 1 (1 + 8) = 2108 ∧
    arm_offset_f32 sampleMem ⟨1, 0⟩ 1000 ⟨1, 1⟩ 9 1 (1 + 1) = 1102 ∧
    offset_naive sampleMem ⟨1, 0⟩ 1000 ⟨1, 1⟩ 9 1 (1 + 1) = 2101 ∧
    arm_offset_f32 sampleMem ⟨1, 0⟩ 1000 ⟨1, 1⟩ 9 ≠ offset_naive sampleMem ⟨1, 0⟩ 1000 ⟨1, 1⟩ 9 := by
  have h1 : arm_offset_f32 sampleMem ⟨1, 0⟩ 1000 ⟨1, 1⟩ 9 1 (1 + 1) = 1102 := by decide
  have h2 : offset_naive sampleMem ⟨1, 0⟩ 1000 ⟨1, 1⟩ 9 1 (1 + 1) = 2101 := by decide
  refine ⟨by decide, by decide, h1, h2, ?_⟩
  intro h
  rw [h, h2] at h1
  exact absurd h1 (by decide)

/-- C12, amended: when no source element is overwritten before it is read (the destination
lies in another buffer than the source, or in the same buffer and does not start after the
source, or in the same buffer at or after the end of the `n` source elements),
`arm_offset_f32` leaves `pDst[i] = pSrc[i] + offset` for every `i < n`, `pSrc[i]` being
the input value and the sum a single addition, and the buffers it leaves are those of the
naive elementwise loop, for every length `n`. -/
theorem arm_offset_f32_elementwise {α : Type} [Add α] (mem : Buffers α) (pSrc : ElemPtr)
    (offset : α) (pDst : ElemPtr) (n : Nat) (h : OffsetSafe pSrc pDst n) :
    (∀ i, i < n → arm_offset_f32 mem pSrc offset pDst n pDst.buf (pDst.idx + i) =
      mem pSrc.buf (pSrc.idx + i) + offset) ∧
    arm_offset_f32 mem pSrc offset pDst n = offset_naive mem pSrc offset pDst n := by
  refine ⟨?_, ?_⟩
  · intro i hi
    rw [arm_offset_f32_eq_result_safe mem pSrc offset pDst n h]
    unfold offset_result
    rw [if_pos ⟨rfl, by omega, by omega⟩, Nat.add_sub_cancel_left]
  · rw [arm_offset_f32_eq_result_safe mem pSrc offset pDst n h,
      offset_naive_eq_result_safe mem pSrc offset pDst n h]

theorem arm_offset_f32_elementwise_witness :
    OffsetSafe ⟨1, 2⟩ ⟨1, 19⟩ 17 ∧
    (∀ i, i < 17 → arm_offset_f32 sampleMem ⟨1, 2⟩ 1000 ⟨1, 19⟩ 17 1 (19 + i) =
      sampleMem 1 (2 + i) + 1000) ∧
    arm_offset_f32 sampleMem ⟨1, 2⟩ 1000 ⟨1, 19⟩ 17 =
      offset_naive sampleMem ⟨1, 2⟩ 1000 ⟨1, 19⟩ 17 :=
  ⟨by decide, arm_offset_f32_elementwise sampleMem ⟨1, 2⟩ 1000 ⟨1, 19⟩ 17 (by decide)⟩

/-- C13: for `q31_t` samples whose sum of squares `s` does not wrap the 64-bit accumulator
(`s < 2 ^ 63`) and has `s >> 31` above `2 ^ 31 - 1`, no addition of `arm_rms_q31`
overflows, the accumulator holds `s`, and the final conversion yields the clamped value
`2 ^ 31 - 1`, which lies in the range `[-2 ^ 31, 2 ^ 31 - 1]` of the output format. -/
theorem arm_rms_q31_saturates (CCS : Bool) (x : Nat → Int) (n : Nat)
    (hQ : ∀ i, i < n → isQ31 (x i))
    (hfit : rms_sum_exact x n < 2 ^ 63)
    (hbig : 2 ^ 31 - 1 < rms_sum_exact x n >>> (31 : Nat)) :
    (rms_accumulate x n).noOverflow = true ∧
    (rms_accumulate x n).sum = rms_sum_exact x n ∧
    rms_saturated CCS x n = 2 ^ 31 - 1 ∧
    -(2 ^ 31) ≤ rms_saturated CCS x n ∧ rms_saturated CCS x n ≤ 2 ^ 31 - 1 := by
  have hsq : ∀ m, m ≤ n → sumTo (sq_term x) m = sumTo (fun i => x i * x i) m := by
    intro m hm
    apply sumTo_congr
    intro i hi
    exact wrap64_mul_of_isQ31 (hQ i (by omega)) (hQ i (by omega))
  rw [rms_sum_exact_eq_sumTo] at hfit hbig
  have hacc := rms_accumulate_fits x n (by
    intro m hm
    rw [hsq m hm]
    have h1 : 0 ≤ sumTo (fun i => x i * x i) m :=
      sumTo_nonneg (fun i _ => mul_self_nonneg (x i))
    have h2 : sumTo (fun i => x i * x i) m ≤ sumTo (fun i => x i * x i) n :=
      sumTo_mono hm (fun i _ => mul_self_nonneg (x i))
    omega)
  have hsum : (rms_accumulate x n).sum = sumTo (fun i => x i * x i) n := by
    rw [hacc.2, hsq n (le_refl n)]
  have hsat : rms_saturated CCS x n = 2 ^ 31 - 1 := by
    rw [rms_saturated_eq, hsum]
    exact SSAT_of_gt hbig
  refine ⟨hacc.1, ?_, hsat, ?_, ?_⟩
  · rw [hsum, rms_sum_exact_eq_sumTo]
  · rw [hsat]; decide
  · rw [hsat]

theorem arm_rms_q31_saturates_witness :
    (∀ i, i < 9 → isQ31 (allLarge i)) ∧ rms_sum_exact allLarge 9 < 2 ^ 63 ∧
    2 ^ 31 - 1 < rms_sum_exact allLarge 9 >>> (31 : Nat) ∧
    (rms_accumulate allLarge 9).noOverflow = true ∧
    (rms_accumulate allLarge 9).sum = rms_sum_exact allLarge 9 ∧
    rms_saturated false allLarge 9 = 2 ^ 31 - 1 ∧
    -(2 ^ 31) ≤ rms_saturated false allLarge 9 ∧ rms_saturated false allLarge 9 ≤ 2 ^ 31 - 1 :=
  ⟨by decide, by decide, by decide,
    arm_rms_q31_saturates false allLarge 9 (by decide) (by decide) (by decide)⟩

/-- C14, as stated, fails for `arm_rms_q31` with `blockSize = 0`: the division by
`(int32_t) blockSize` is a division by zero, so no argument for the square root and no
result is defined.  It also fails with `blockSize = 2 ^ 32 - 1` and every sample `-2 ^ 31`:
the divisor `(int32_t) blockSize` is `-1`, the saturated sum is `-2 ^ 31`, and their
quotient is not representable. -/
theorem kernels_total_counterexample :
    rms_sqrt_arg false sampleA 0 = none ∧ rms_sqrt_arg true sampleA 0 = none ∧
    arm_rms_q31 id false sampleA 0 = none ∧
    rms_saturated false allMin 4294967295 = -(2 ^ 31) ∧ wrap32 4294967295 = -1 ∧
    rms_sqrt_arg false allMin 4294967295 = none := by
  have hterm : sq_term allMin = fun _ => 2 ^ 62 := by
    funext i; show wrap64 ((-2147483648) * (-2147483648)) = 2 ^ 62; decide
  have hsat : rms_saturated false allMin 4294967295 = -(2 ^ 31) := by
    rw [rms_saturated_eq, (rms_accumulate_eq_wrap allMin 4294967295).2, hterm, sumTo_const]
    decide
  refine ⟨by decide, by decide, by decide, hsat, by decide, ?_⟩
  unfold rms_sqrt_arg
  rw [hsat]
  decide

/-- C14, amended: `arm_dot_prod_q31`, `arm_offset_f32` and `arm_cmplx_dot_prod_f32` run to
completion for every length `n`, zero included: their loops end with the pointers moved
past exactly `n` samples (`2 * n` values for the complex kernel).  `arm_rms_q31` does so
for every length `nR` with `1 ≤ nR ≤ 2 ^ 32 - 2`, for which its division is defined and
the square root receives an argument. -/
theorem kernels_total {α : Type} [Zero α] [Add α] [Mul α] (a b : Nat → Int)
    (mem : Buffers α) (pSrc pDst : ElemPtr) (offset : α) (A B : Nat → α) (n : Nat)
    (CCS : Bool) (x : Nat → Int) (nR : Nat) (h1 : 1 ≤ nR) (h2 : nR ≤ 2 ^ 32 - 2) :
    ((dot_prod_run a b n).pSrcA = advance a n ∧ (dot_prod_run a b n).pSrcB = advance b n) ∧
    ((offset_run mem pSrc offset pDst n).pSrc = pSrc.add n ∧
      (offset_run mem pSrc offset pDst n).pDst = pDst.add n) ∧
    ((cmplx_dot_prod_run A B n).pSrcA = advance A (2 * n) ∧
      (cmplx_dot_prod_run A B n).pSrcB = advance B (2 * n) ∧
      arm_cmplx_dot_prod_f32 A B n =
        ((cmplx_dot_prod_run A B n).real_sum, (cmplx_dot_prod_run A B n).imag_sum)) ∧
    ((rms_accumulate x nR).pIn1 = advance x nR ∧
      ∃ v, rms_sqrt_arg CCS x nR = some v) := by
  have hn8 : 8 * (n >>> 3) + n % 8 = n := by rw [Nat.shiftRight_eq_div_pow]; omega
  have hn4 : 8 * (n >>> 2) + 2 * (n % 4) = 2 * n := by rw [Nat.shiftRight_eq_div_pow]; omega
  refine ⟨?_, ?_, ?_, ?_⟩
  · obtain ⟨hA, hB, _⟩ := dot_prod_loop8_mod (n >>> 3) ⟨a, b, 0, 0, true⟩
    obtain ⟨h1A, h1B⟩ := dot_prod_loop1_ptr (n % 8)
      (dot_prod_merge (loopN dot_prod_body8 (n >>> 3) ⟨a, b, 0, 0, true⟩))
    unfold dot_prod_run
    simp only []
    rw [h1A, h1B]
    show advance (loopN dot_prod_body8 (n >>> 3) ⟨a, b, 0, 0, true⟩).pSrcA (n % 8) = _ ∧
      advance (loopN dot_prod_body8 (n >>> 3) ⟨a, b, 0, 0, true⟩).pSrcB (n % 8) = _
    rw [hA, hB, advance_advance, advance_advance, hn8]
    exact ⟨rfl, rfl⟩
  · obtain ⟨hA, hB⟩ := offset_loop8_ptr offset (n >>> 3) ⟨mem, pSrc, pDst⟩
    obtain ⟨h1A, h1B⟩ := offset_loop1_ptr offset (n % 8)
      (loopN (offset_body8 offset) (n >>> 3) ⟨mem, pSrc, pDst⟩)
    unfold offset_run
    simp only []
    rw [h1A, h1B, hA, hB, ElemPtr.add_add, ElemPtr.add_add, hn8]
    exact ⟨rfl, rfl⟩
  · obtain ⟨hA, hB⟩ := cmplx_dot_prod_loop4_ptr (n >>> 2) (⟨A, B, 0, 0⟩ : CmplxDotProdState α)
    obtain ⟨h1A, h1B⟩ := cmplx_dot_prod_loop1_ptr (n % 4)
      (loopN cmplx_dot_prod_body4 (n >>> 2) (⟨A, B, 0, 0⟩ : CmplxDotProdState α))
    unfold cmplx_dot_prod_run
    simp only []
    rw [h1A, h1B, hA, hB, advance_advance, advance_advance, hn4]
    exact ⟨rfl, rfl, rfl⟩
  · refine ⟨(rms_accumulate_eq_wrap x nR).1, ?_⟩
    have hw : wrap32 (nR : Int) ≠ 0 ∧ wrap32 (nR : Int) ≠ -1 := by
      unfold wrap32; omega
    unfold rms_sqrt_arg sdiv32
    rw [if_neg hw.1, if_neg (fun hh => hw.2 hh.2)]
    exact ⟨_, rfl⟩

theorem kernels_total_witness :
    1 ≤ 9 ∧ 9 ≤ 2 ^ 32 - 2 ∧
    ((dot_prod_run sampleA sampleB 0).pSrcA = advance sampleA 0 ∧
      (dot_prod_run sampleA sampleB 0).pSrcB = advance sampleB 0) ∧
    ((offset_run sampleMem ⟨1, 2⟩ 1000 ⟨2, 3⟩ 0).pSrc = ElemPtr.add ⟨1, 2⟩ 0 ∧
      (offset_run sampleMem ⟨1, 2⟩ 1000 ⟨2, 3⟩ 0).pDst = ElemPtr.add ⟨2, 3⟩ 0) ∧
    ((cmplx_dot_prod_run cmplxA cmplxB 0).pSrcA = advance cmplxA (2 * 0) ∧
      (cmplx_dot_prod_run cmplxA cmplxB 0).pSrcB = advance cmplxB (2 * 0) ∧
      arm_cmplx_dot_prod_f32 cmplxA cmplxB 0 =
        ((cmplx_dot_prod_run cmplxA cmplxB 0).real_sum,
          (cmplx_dot_prod_run cmplxA cmplxB 0).imag_sum)) ∧
    ((rms_accumulate sampleA 9).pIn1 = advance sampleA 9 ∧
      ∃ v, rms_sqrt_arg false sampleA 9 = some v) :=
  ⟨by decide, by decide,
    kernels_total sampleA sampleB sampleMem ⟨1, 2⟩ ⟨2, 3⟩ 1000 cmplxA cmplxB 0 false sampleA 9
      (by decide) (by decide)⟩

/-- C15, as stated, fails for `M = 0`: the validation `blockSize % M` divides by zero, so
the call has no defined status. -/
theorem arm_fir_decimate_init_q31_zero_factor_counterexample :
    arm_fir_decimate_init_q31 sampleMem staleFir 5 0 1 2 8 = none ∧
      ¬ ∃ r, arm_fir_decimate_init_q31 sampleMem staleFir 5 0 1 2 8 = some r := by
  have h : arm_fir_decimate_init_q31 sampleMem staleFir 5 0 1 2 8 = none := rfl
  refine ⟨h, ?_⟩
  rintro ⟨r, hr⟩
  rw [h] at hr
  exact absurd hr (by simp)

/-- C15, amended: for every `numTaps`, every `blockSize` and every decimation factor
`M ≥ 1` (so for every `M` from 1 to 255), the validation `blockSize % M` is defined and `arm_fir_decimate_init_q31`
returns one of the two status codes `ARM_MATH_SUCCESS` and `ARM_MATH_LENGTH_ERROR`. -/
theorem arm_fir_decimate_init_q31_returns (mem : Memory) (S : arm_fir_decimate_instance_q31)
    (numTaps M : Nat) (pCoeffs pState : Ptr) (blockSize : Nat) (hM : 1 ≤ M) :
    ∃ r, arm_fir_decimate_init_q31 mem S numTaps M pCoeffs pState blockSize = some r ∧
      (r.status = arm_status.ARM_MATH_SUCCESS ∨
        r.status = arm_status.ARM_MATH_LENGTH_ERROR) := by
  by_cases hdiv : blockSize % M = 0
  · exact ⟨_, arm_fir_decimate_init_q31_success mem S numTaps M pCoeffs pState blockSize hM hdiv,
      Or.inl rfl⟩
  · exact ⟨_, arm_fir_decimate_init_q31_failure mem S numTaps M pCoeffs pState blockSize hM hdiv,
      Or.inr rfl⟩

theorem arm_fir_decimate_init_q31_returns_witness :
    1 ≤ 255 ∧
      ∃ r, arm_fir_decimate_init_q31 sampleMem staleFir 5 255 1 2 8 = some r ∧
        (r.status = arm_status.ARM_MATH_SUCCESS ∨
          r.status = arm_status.ARM_MATH_LENGTH_ERROR) :=
  ⟨by decide,
    arm_fir_decimate_init_q31_returns sampleMem staleFir 5 255 1 2 8 (by decide)⟩


/-- C16: for samples scaled down by `k` bits (`|x i| * 2 ^ k ≤ 2 ^ 31`, that is
`|x i| ≤ 2 ^ (31 - k)`) and a length `n ≤ 2 ^ k`, no addition of `arm_rms_q31` overflows
the 64-bit accumulator: the accumulator ends with the exact sum of the squares, and that
sum and every partial sum of squares lie in `[0, 2 ^ 63 - 1]`. -/
theorem arm_rms_q31_no_overflow_scaled (k : Nat) (x : Nat → Int) (n : Nat)
    (hn : n ≤ 2 ^ k) (hx : ∀ i, i < n → |x i| * 2 ^ k ≤ 2 ^ 31) :
    (rms_accumulate x n).noOverflow = true ∧
    (rms_accumulate x n).sum = rms_sum_exact x n ∧
    ∀ m, m ≤ n → 0 ≤ rms_sum_exact x m ∧ rms_sum_exact x m ≤ 2 ^ 63 - 1 := by
  have hc : (1 : Int) ≤ 2 ^ k := one_le_pow₀ (by norm_num)
  have hnc : (n : Int) ≤ 2 ^ k := by exact_mod_cast hn
  have hrange : ∀ m, m ≤ n → 0 ≤ sumTo (fun i => x i * x i) m ∧
      sumTo (fun i => x i * x i) m ≤ 2 ^ 62 :=
    fun m hm => sumTo_sq_range x (2 ^ k) n m hc hnc hm hx
  have hterm : ∀ i, i < n → sq_term x i = x i * x i := by
    intro i hi
    have h1 := sq_mul_le hc (hx i hi)
    have h2 : 0 ≤ x i * x i := mul_self_nonneg (x i)
    have h3 : x i * x i ≤ x i * x i * 2 ^ k := by nlinarith
    exact wrap64_of_fits (by omega) (by omega)
  have hsq : ∀ m, m ≤ n → sumTo (sq_term x) m = sumTo (fun i => x i * x i) m :=
    fun m hm => sumTo_congr (fun i hi => hterm i (by omega))
  have hacc := rms_accumulate_fits x n (by
    intro m hm
    rw [hsq m hm]
    have := hrange m hm
    omega)
  refine ⟨hacc.1, ?_, ?_⟩
  · rw [hacc.2, hsq n (le_refl n), rms_sum_exact_eq_sumTo]
  · intro m hm
    rw [rms_sum_exact_eq_sumTo]
    have := hrange m hm
    omega

theorem arm_rms_q31_no_overflow_scaled_witness :
    8 ≤ 2 ^ 3 ∧ (∀ i, i < 8 → |scaledX i| * 2 ^ 3 ≤ 2 ^ 31) ∧
    (rms_accumulate scaledX 8).noOverflow = true ∧
    (rms_accumulate scaledX 8).sum = rms_sum_exact scaledX 8 ∧
    ∀ m, m ≤ 8 → 0 ≤ rms_sum_exact scaledX m ∧ rms_sum_exact scaledX m ≤ 2 ^ 63 - 1 :=
  ⟨by decide, by decide,
    arm_rms_q31_no_overflow_scaled 3 scaledX 8 (by decide) (by decide)⟩

/-- C17: for a vector of `n` zeros, `1 ≤ n < 2 ^ 32`, `arm_rms_q31` passes exactly 0 to the
square-root primitive, so with a primitive that maps 0 to 0 the value written to
`*pResult` is 0. -/
theorem arm_rms_q31_zero (arm_sqrt_q31 : Int → Int) (CCS : Bool) (x : Nat → Int) (n : Nat)
    (h1 : 1 ≤ n) (h2 : n < 2 ^ 32) (hz : ∀ i, i < n → x i = 0)
    (h0 : arm_sqrt_q31 0 = 0) :
    rms_sqrt_arg CCS x n = some 0 ∧ arm_rms_q31 arm_sqrt_q31 CCS x n = some 0 := by
  have hterm : sumTo (sq_term x) n = 0 := by
    apply sumTo_zero_of_zero
    intro i hi
    show wrap64 (x i * x i) = 0
    rw [hz i hi]; decide
  have hsat : rms_saturated CCS x n = 0 := by
    rw [rms_saturated_eq, (rms_accumulate_eq_wrap x n).2, hterm]; decide
  have hw : wrap32 (n : Int) ≠ 0 := by unfold wrap32; omega
  have harg : rms_sqrt_arg CCS x n = some 0 := by
    have hw0 : wrap32 0 = 0 := by decide
    have hmin : ¬ (wrap32 0 = -(2 ^ 31) ∧ wrap32 (n : Int) = -1) := by
      rintro ⟨h, _⟩
      rw [hw0] at h
      exact absurd h (by decide)
    unfold rms_sqrt_arg sdiv32
    rw [hsat, if_neg hw, if_neg hmin]
    simp only [hw0, Int.zero_tdiv, Option.map_some']
  refine ⟨harg, ?_⟩
  unfold arm_rms_q31
  rw [harg]
  simp only [Option.map_some', h0]

theorem arm_rms_q31_zero_witness :
    1 ≤ 9 ∧ 9 < 2 ^ 32 ∧ (∀ i, i < 9 → allZero i = 0) ∧ (id : Int → Int) 0 = 0 ∧
    rms_sqrt_arg false allZero 9 = some 0 ∧ arm_rms_q31 id false allZero 9 = some 0 :=
  ⟨by decide, by decide, by decide, rfl,
    arm_rms_q31_zero id false allZero 9 (by decide) (by decide) (by decide) rfl⟩

/-- C18: for `q31_t` values `a` and `b` the product `(q63_t) a * b` does not overflow: it
is the exact integer product, which lies in `[-2 ^ 62 + 2 ^ 31, 2 ^ 62]`; so the term of
`arm_dot_prod_q31` is the exact product shifted right by 14 and the term of `arm_rms_q31`
is the exact square. -/
theorem q63_product_exact (a b : Int) (ha : isQ31 a) (hb : isQ31 b) :
    wrap64 (a * b) = a * b ∧ -(2 ^ 62) + 2 ^ 31 ≤ a * b ∧ a * b ≤ 2 ^ 62 ∧
    mul_shift14 a b = (a * b) >>> (14 : Nat) ∧ wrap64 (a * a) = a * a := by
  have hw := wrap64_mul_of_isQ31 ha hb
  have hwa := wrap64_mul_of_isQ31 ha ha
  refine ⟨hw, ?_, ?_, ?_, hwa⟩
  · obtain ⟨ha1, ha2⟩ := ha
    obtain ⟨hb1, hb2⟩ := hb
    have h1 : 0 ≤ (a + 2 ^ 31) * (b + 2 ^ 31) := mul_nonneg (by linarith) (by linarith)
    have h2 : 0 ≤ (2 ^ 31 - 1 - a) * (2 ^ 31 - 1 - b) := mul_nonneg (by linarith) (by linarith)
    nlinarith
  · obtain ⟨ha1, ha2⟩ := ha
    obtain ⟨hb1, hb2⟩ := hb
    have h1 : 0 ≤ (2 ^ 31 + a) * (2 ^ 31 - b) := mul_nonneg (by linarith) (by linarith)
    have h2 : 0 ≤ (2 ^ 31 - a) * (2 ^ 31 + b) := mul_nonneg (by linarith) (by linarith)
    nlinarith
  · unfold mul_shift14; rw [hw]

theorem q63_product_exact_witness :
    isQ31 (-2147483648) ∧ isQ31 2147483647 ∧
    wrap64 (-2147483648 * 2147483647) = -2147483648 * 2147483647 ∧
    -(2 ^ 62) + 2 ^ 31 ≤ (-2147483648 : Int) * 2147483647 ∧
    (-2147483648 : Int) * 2147483647 ≤ 2 ^ 62 ∧
    mul_shift14 (-2147483648) 2147483647 = ((-2147483648 : Int) * 2147483647) >>> (14 : Nat) ∧
    wrap64 (-2147483648 * -2147483648) = -2147483648 * -2147483648 :=
  ⟨by decide, by decide, q63_product_exact (-2147483648) 2147483647 (by decide) (by decide)⟩


/-- C19: with source and destination in different buffers, `arm_offset_f32` changes no
element other than `pDst[0], ..., pDst[n - 1]`: the destination from index `n` on and the
whole source buffer are as before; and the values it writes depend on no element other
than `pSrc[0], ..., pSrc[n - 1]`: they are the same for buffers `mem2` that agree with
`mem` on these `n` source elements. -/
theorem arm_offset_f32_frame {α : Type} [Add α] (mem mem2 : Buffers α) (pSrc : ElemPtr)
    (offset : α) (pDst : ElemPtr) (n : Nat) (hd : pSrc.buf ≠ pDst.buf)
    (hagree : ∀ i, i < n → mem2 pSrc.buf (pSrc.idx + i) = mem pSrc.buf (pSrc.idx + i)) :
    (∀ q x, ¬ (q = pDst.buf ∧ pDst.idx ≤ x ∧ x < pDst.idx + n) →
      arm_offset_f32 mem pSrc offset pDst n q x = mem q x) ∧
    (∀ x, pDst.idx + n ≤ x → arm_offset_f32 mem pSrc offset pDst n pDst.buf x = mem pDst.buf x) ∧
    (∀ x, arm_offset_f32 mem pSrc offset pDst n pSrc.buf x = mem pSrc.buf x) ∧
    (∀ i, i < n → arm_offset_f32 mem2 pSrc offset pDst n pDst.buf (pDst.idx + i) =
      arm_offset_f32 mem pSrc offset pDst n pDst.buf (pDst.idx + i)) := by
  have h : DstNotAfterSrc pSrc pDst := Or.inl hd
  have hout : ∀ q x, ¬ (q = pDst.buf ∧ pDst.idx ≤ x ∧ x < pDst.idx + n) →
      arm_offset_f32 mem pSrc offset pDst n q x = mem q x := by
    intro q x hq
    rw [arm_offset_f32_eq_result mem pSrc offset pDst n h]
    unfold offset_result
    rw [if_neg hq]
  refine ⟨hout, ?_, ?_, ?_⟩
  · intro x hx
    exact hout pDst.buf x (by omega)
  · intro x
    exact hout pSrc.buf x (fun hh => hd hh.1)
  · intro i hi
    have hin : pDst.buf = pDst.buf ∧ pDst.idx ≤ pDst.idx + i ∧ pDst.idx + i < pDst.idx + n :=
      ⟨rfl, by omega, by omega⟩
    rw [arm_offset_f32_eq_result mem2 pSrc offset pDst n h,
      arm_offset_f32_eq_result mem pSrc offset pDst n h]
    unfold offset_result
    rw [if_pos hin, if_pos hin, Nat.add_sub_cancel_left, hagree i hi]

theorem arm_offset_f32_frame_witness :
    (1 : Ptr) ≠ 2 ∧
    (∀ i, i < 17 → sampleMemElsewhereZero 1 (2 + i) = sampleMem 1 (2 + i)) ∧
    (∀ q x, ¬ (q = 2 ∧ 3 ≤ x ∧ x < 3 + 17) →
      arm_offset_f32 sampleMem ⟨1, 2⟩ 1000 ⟨2, 3⟩ 17 q x = sampleMem q x) ∧
    (∀ x, 3 + 17 ≤ x → arm_offset_f32 sampleMem ⟨1, 2⟩ 1000 ⟨2, 3⟩ 17 2 x = sampleMem 2 x) ∧
    (∀ x, arm_offset_f32 sampleMem ⟨1, 2⟩ 1000 ⟨2, 3⟩ 17 1 x = sampleMem 1 x) ∧
    (∀ i, i < 17 → arm_offset_f32 sampleMemElsewhereZero ⟨1, 2⟩ 1000 ⟨2, 3⟩ 17 2 (3 + i) =
      arm_offset_f32 sampleMem ⟨1, 2⟩ 1000 ⟨2, 3⟩ 17 2 (3 + i)) :=
  ⟨by decide, by decide,
    arm_offset_f32_frame sampleMem sampleMemElsewhereZero ⟨1, 2⟩ 1000 ⟨2, 3⟩ 17 (by decide)
      (by decide)⟩

/-- C20, as stated, fails for the length `n = 2 ^ 32 - 1` with every sample `2 ^ 15`: the
sum of squares `(2 ^ 32 - 1) * 2 ^ 30` does not wrap, its shift by 31 saturates to
`2 ^ 31 - 1`, and `sat(S >> 31) / n` is `0`; but the code divides by `(int32_t) n = -1` and
passes `-(2 ^ 31 - 1)` to the square-root primitive. -/
theorem arm_rms_q31_sqrt_arg_counterexample :
    (∀ i, i < 4294967295 → isQ31 (allPow15 i)) ∧
    rms_sum_naive allPow15 4294967295 = 4294967295 * 2 ^ 30 ∧
    Int.tdiv (__SSAT (rms_sum_naive allPow15 4294967295 >>> (31 : Nat)) 31) 4294967295 = 0 ∧
    rms_sqrt_arg false allPow15 4294967295 = some (-2147483647) := by
  have hq : isQ31 32768 := by decide
  have hsq : (fun i => allPow15 i * allPow15 i) = fun _ => 2 ^ 30 := by
    funext i; show (32768 : Int) * 32768 = 2 ^ 30; decide
  have hterm : sq_term allPow15 = fun _ => 2 ^ 30 := by
    funext i; show wrap64 (32768 * 32768) = 2 ^ 30; decide
  have hnaive : rms_sum_naive allPow15 4294967295 = 4294967295 * 2 ^ 30 := by
    rw [rms_sum_naive_eq_wrap, hsq, sumTo_const]; decide
  have hsat : rms_saturated false allPow15 4294967295 = 2147483647 := by
    rw [rms_saturated_eq, (rms_accumulate_eq_wrap allPow15 4294967295).2, hterm, sumTo_const]
    decide
  refine ⟨fun _ _ => hq, hnaive, ?_, ?_⟩
  · rw [hnaive]; decide
  · unfold rms_sqrt_arg
    rw [hsat]
    decide

/-- C20, amended: for `q31_t` samples and a length `1 ≤ n < 2 ^ 31`, `arm_rms_q31` calls
the square-root primitive on exactly `sat(S >> 31) / n`: `S` the sum of the squares
accumulated one after the other in a wrapping 64-bit accumulator, `sat` the final
saturation, applied after the shift by 31 and before the division, and `/` the division
by `n` truncated towards zero. -/
theorem arm_rms_q31_sqrt_arg (arm_sqrt_q31 : Int → Int) (CCS : Bool) (x : Nat → Int) (n : Nat)
    (h1 : 1 ≤ n) (h2 : n < 2 ^ 31) (hQ : ∀ i, i < n → isQ31 (x i)) :
    (rms_accumulate x n).sum = rms_sum_naive x n ∧
    rms_sqrt_arg CCS x n =
      some (Int.tdiv (__SSAT (rms_sum_naive x n >>> (31 : Nat)) 31) (n : Int)) ∧
    arm_rms_q31 arm_sqrt_q31 CCS x n =
      some (arm_sqrt_q31 (Int.tdiv (__SSAT (rms_sum_naive x n >>> (31 : Nat)) 31) (n : Int))) := by
  have hsum : (rms_accumulate x n).sum = rms_sum_naive x n := by
    rw [(rms_accumulate_eq_wrap x n).2, rms_sum_naive_eq_wrap]
    congr 1
    apply sumTo_congr
    intro i hi
    exact wrap64_mul_of_isQ31 (hQ i hi) (hQ i hi)
  have harg : rms_sqrt_arg CCS x n =
      some (Int.tdiv (__SSAT (rms_sum_naive x n >>> (31 : Nat)) 31) (n : Int)) := by
    rw [rms_sqrt_arg_eq CCS x n h1 h2, rms_saturated_eq, hsum]
  refine ⟨hsum, harg, ?_⟩
  unfold arm_rms_q31
  rw [harg]
  rfl

theorem arm_rms_q31_sqrt_arg_witness :
    1 ≤ 11 ∧ 11 < 2 ^ 31 ∧ (∀ i, i < 11 → isQ31 (sampleA i)) ∧
    (rms_accumulate sampleA 11).sum = rms_sum_naive sampleA 11 ∧
    rms_sqrt_arg false sampleA 11 =
      some (Int.tdiv (__SSAT (rms_sum_naive sampleA 11 >>> (31 : Nat)) 31) ((11 : Nat) : Int)) ∧
    arm_rms_q31 id false sampleA 11 =
      some (id (Int.tdiv (__SSAT (rms_sum_naive sampleA 11 >>> (31 : Nat)) 31)
        ((11 : Nat) : Int))) :=
  ⟨by decide, by decide, by decide,
    arm_rms_q31_sqrt_arg id false sampleA 11 (by decide) (by decide) (by decide)⟩


/-- C21: for every `numSamples` and all interleaved inputs, `arm_cmplx_dot_prod_f32` stores
`CReal = A[0]*B[0] + A[2]*B[2] + ...` and `CImag = A[1]*B[1] + A[3]*B[3] + ...`, each
accumulated from 0 in increasing index order: the result of the naive loop that handles
one complex sample at a time. -/
theorem arm_cmplx_dot_prod_f32_eq_naive {α : Type} [Zero α] [Add α] [Mul α]
    (A B : Nat → α) (numSamples : Nat) :
    arm_cmplx_dot_prod_f32 A B numSamples = cmplx_dot_prod_naive A B numSamples := by
  have h : arm_cmplx_dot_prod_f32 A B numSamples =
      ((cmplx_dot_prod_run A B numSamples).real_sum,
        (cmplx_dot_prod_run A B numSamples).imag_sum) := rfl
  rw [h, cmplx_dot_prod_run_eq, cmplx_dot_prod_loop1_sums]
  rfl

/-- C22: `arm_dot_prod_q31` is additive over concatenation at any split point `n`: its
result on the first `n` samples of `a`, `b` followed by `m` samples of `a2`, `b2` is the
sum, modulo `2 ^ 64`, of its results on `(a, b, n)` and on `(a2, b2, m)`. -/
theorem arm_dot_prod_q31_concat (a b a2 b2 : Nat → Int) (n m : Nat) :
    arm_dot_prod_q31 (concat a n a2) (concat b n b2) (n + m) =
      wrap64 (arm_dot_prod_q31 a b n + arm_dot_prod_q31 a2 b2 m) := by
  rw [arm_dot_prod_q31_eq_wrap, arm_dot_prod_q31_eq_wrap a b, arm_dot_prod_q31_eq_wrap a2 b2,
    sumTo_add]
  have h1 : sumTo (dot_term (concat a n a2) (concat b n b2)) n = sumTo (dot_term a b) n := by
    apply sumTo_congr
    intro i hi
    simp only [dot_term, concat, if_pos hi]
  have h2 : advance (dot_term (concat a n a2) (concat b n b2)) n = dot_term a2 b2 := by
    have e : advance (dot_term (concat a n a2) (concat b n b2)) n =
        dot_term (advance (concat a n a2) n) (advance (concat b n b2) n) := rfl
    rw [e, concat_advance, concat_advance]
  rw [h1, h2]
  unfold wrap64; omega

/-- C23: for `q31_t` samples and a length `1 ≤ n < 2 ^ 31` whose sum of squares does not
wrap the 64-bit accumulator, the value `arm_rms_q31` passes to the square-root primitive
is non-negative and at most the upper saturation bound `2 ^ 31 - 1`.  For the two samples
`-2 ^ 31`, `-2 ^ 31`, whose sum of squares `2 ^ 63` wraps the accumulator, the value
passed is `-2 ^ 30`, while the mean of the squares, shifted by 31, is `2 ^ 31`. -/
theorem arm_rms_q31_sqrt_arg_nonneg (CCS : Bool) (x : Nat → Int) (n : Nat)
    (h1 : 1 ≤ n) (h2 : n < 2 ^ 31) (hQ : ∀ i, i < n → isQ31 (x i))
    (hfit : rms_sum_exact x n < 2 ^ 63) :
    (∃ v, rms_sqrt_arg CCS x n = some v ∧ 0 ≤ v ∧ v ≤ 2 ^ 31 - 1) ∧
    (rms_sum_exact allMin 2 = 2 ^ 63 ∧ (rms_accumulate allMin 2).noOverflow = false ∧
      rms_sqrt_arg CCS allMin 2 = some (-(2 ^ 30)) ∧
      Int.tdiv (rms_sum_exact allMin 2 >>> (31 : Nat)) 2 = 2 ^ 31) := by
  refine ⟨?_, ?_⟩
  · have hsq : ∀ m, m ≤ n → sumTo (sq_term x) m = sumTo (fun i => x i * x i) m := by
      intro m hm
      apply sumTo_congr
      intro i hi
      exact wrap64_mul_of_isQ31 (hQ i (by omega)) (hQ i (by omega))
    rw [rms_sum_exact_eq_sumTo] at hfit
    have hacc := rms_accumulate_fits x n (by
      intro m hm
      rw [hsq m hm]
      have h3 : 0 ≤ sumTo (fun i => x i * x i) m :=
        sumTo_nonneg (fun i _ => mul_self_nonneg (x i))
      have h4 : sumTo (fun i => x i * x i) m ≤ sumTo (fun i => x i * x i) n :=
        sumTo_mono hm (fun i _ => mul_self_nonneg (x i))
      omega)
    have hS : 0 ≤ (rms_accumulate x n).sum := by
      rw [hacc.2, hsq n (le_refl n)]
      exact sumTo_nonneg (fun i _ => mul_self_nonneg (x i))
    have hshift : 0 ≤ (rms_accumulate x n).sum >>> (31 : Nat) := by
      rw [Int.shiftRight_eq_div_pow]
      exact Int.ediv_nonneg hS (by norm_num)
    have hsat := SSAT_nonneg hshift
    rw [← rms_saturated_eq CCS] at hsat
    have hn1 : (1 : Int) ≤ (n : Int) := by exact_mod_cast h1
    have ht := tdiv_nonneg_range hsat.1 hn1
    exact ⟨_, rms_sqrt_arg_eq CCS x n h1 h2, ht.1, by omega⟩
  · refine ⟨by decide, by decide, ?_, by decide⟩
    cases CCS <;> decide

theorem arm_rms_q31_sqrt_arg_nonneg_witness :
    1 ≤ 11 ∧ 11 < 2 ^ 31 ∧ (∀ i, i < 11 → isQ31 (scaledX i)) ∧
    rms_sum_exact scaledX 11 < 2 ^ 63 ∧
    (∃ v, rms_sqrt_arg false scaledX 11 = some v ∧ 0 ≤ v ∧ v ≤ 2 ^ 31 - 1) ∧
    (rms_sum_exact allMin 2 = 2 ^ 63 ∧ (rms_accumulate allMin 2).noOverflow = false ∧
      rms_sqrt_arg false allMin 2 = some (-(2 ^ 30)) ∧
      Int.tdiv (rms_sum_exact allMin 2 >>> (31 : Nat)) 2 = 2 ^ 31) :=
  ⟨by decide, by decide, by decide, by decide,
    arm_rms_q31_sqrt_arg_nonneg false scaledX 11 (by decide) (by decide) (by decide)
      (by decide)⟩

/-- C24: used in place (`pDst = pSrc = p`), for every length `n` and offset,
`arm_offset_f32` leaves `old[i] + offset` at every index `i < n` of the buffer, `old[i]`
being the value before the call, leaves every other element unchanged (the indices from
`n` on in particular), and leaves the buffers of the naive elementwise loop. -/
theorem arm_offset_f32_in_place {α : Type} [Add α] (mem : Buffers α) (p : ElemPtr)
    (offset : α) (n : Nat) :
    (∀ i, i < n → arm_offset_f32 mem p offset p n p.buf (p.idx + i) =
      mem p.buf (p.idx + i) + offset) ∧
    (∀ x, p.idx + n ≤ x → arm_offset_f32 mem p offset p n p.buf x = mem p.buf x) ∧
    (∀ q x, ¬ (q = p.buf ∧ p.idx ≤ x ∧ x < p.idx + n) →
      arm_offset_f32 mem p offset p n q x = mem q x) ∧
    arm_offset_f32 mem p offset p n = offset_naive mem p offset p n := by
  have h : DstNotAfterSrc p p := Or.inr (Nat.le_refl _)
  have hout : ∀ q x, ¬ (q = p.buf ∧ p.idx ≤ x ∧ x < p.idx + n) →
      arm_offset_f32 mem p offset p n q x = mem q x := by
    intro q x hq
    rw [arm_offset_f32_eq_result mem p offset p n h]
    unfold offset_result
    rw [if_neg hq]
  refine ⟨?_, ?_, hout, ?_⟩
  · intro i hi
    rw [arm_offset_f32_eq_result mem p offset p n h]
    unfold offset_result
    rw [if_pos ⟨rfl, by omega, by omega⟩, Nat.add_sub_cancel_left]
  · intro x hx
    exact hout p.buf x (by omega)
  · rw [arm_offset_f32_eq_result mem p offset p n h, offset_naive_eq_result mem p offset p n h]


end CMSIS
